import Mathlib

/-!
Verification of the streaming chat-completion client of `src/api.rs` and its
caller `send_message` in `src/ui.rs`.

Modelling conventions:
* Rust `String`/`&str` values are modelled as `List Char`; raw network bytes
  as `List Nat` (each entry < 256).
* `String::from_utf8` is modelled by `utf8Decode`, `str::lines` by
  `rustLines`.
* `serde_json::from_str::<Value>` is modelled by `parseJson`, a
  recursive-descent parser for the JSON grammar (numbers are kept as raw
  token text since the code never reads numeric values; `\uXXXX` escapes are
  supported for non-surrogate code points). Like serde_json, the parser has
  a nesting limit, supplied here as explicit fuel that is more than
  sufficient for any input of the given length at realistic nesting.
* Rust `str::find`/`contains` return byte indices; since the pattern
  searched for (`"data: "`) is ASCII and slicing happens right after an
  ASCII match, char indices coincide observationally with byte indices.
-/

/-- Worker for `natStr`; the fuel (any bound on the digit count) makes the
recursion structural. -/
def natStrAux : Nat → Nat → List Char
  | 0, _ => []
  | fuel + 1, n =>
    if n < 10 then [Char.ofNat (48 + n)]
    else natStrAux fuel (n / 10) ++ [Char.ofNat (48 + n % 10)]

/-- Decimal rendering of a natural number, as produced by `format!("{}")`. -/
def natStr (n : Nat) : List Char := natStrAux (n + 1) n

/-- `leadsWith pat s` is true iff `pat` occurs at the start of `s`. -/
def leadsWith : List Char → List Char → Bool
  | [], _ => true
  | _ :: _, [] => false
  | a :: as, b :: bs => a = b && leadsWith as bs

/-- First index at which `pat` occurs in `s` (Rust `str::find`). -/
def findSub (s pat : List Char) : Option Nat :=
  if leadsWith pat s then some 0
  else match s with
    | [] => none
    | _ :: t => (findSub t pat).map (· + 1)

/-- Rust `str::contains`. -/
def containsSub (s pat : List Char) : Bool := (findSub s pat).isSome

/-! ### UTF-8

`utf8EncodeChar`/`utf8Decode` model the UTF-8 encoding used by Rust
`String`s and the validation performed by `String::from_utf8`: overlong
encodings, surrogates and values above `0x10FFFF` are rejected. -/

/-- Canonical UTF-8 encoding of one unicode scalar value. -/
def utf8EncodeChar (c : Char) : List Nat :=
  let n := c.toNat
  if n < 0x80 then [n]
  else if n < 0x800 then [0xC0 + n / 64, 0x80 + n % 64]
  else if n < 0x10000 then
    [0xE0 + n / 4096, 0x80 + n / 64 % 64, 0x80 + n % 64]
  else
    [0xF0 + n / 262144, 0x80 + n / 4096 % 64, 0x80 + n / 64 % 64, 0x80 + n % 64]

/-- UTF-8 encoding of a string (Rust `str::as_bytes`). -/
def utf8Encode (cs : List Char) : List Nat := (cs.map utf8EncodeChar).flatten

/-- Read one continuation byte constrained to `[lo, hi]`, returning its six
payload bits and the remaining bytes. The bounds encode the overlong,
surrogate and out-of-range restrictions of the leading byte. -/
def contByte (lo hi : Nat) : List Nat → Option (Nat × List Nat)
  | [] => none
  | b :: rest => if lo ≤ b ∧ b ≤ hi then some (b - 0x80, rest) else none

/-- Worker for `utf8Decode`; the fuel is decremented once per decoded
character, so any bound on the character count (such as the byte length)
makes it exact. -/
def utf8DecodeAux : Nat → List Nat → Option (List Char)
  | _, [] => some []
  | 0, _ :: _ => none
  | fuel + 1, b :: rest =>
    if b < 0x80 then (utf8DecodeAux fuel rest).map (fun cs => Char.ofNat b :: cs)
    else if 0xC2 ≤ b ∧ b ≤ 0xDF then
      match contByte 0x80 0xBF rest with
      | some (v2, rest2) =>
        (utf8DecodeAux fuel rest2).map (fun cs => Char.ofNat ((b - 0xC0) * 64 + v2) :: cs)
      | none => none
    else if 0xE0 ≤ b ∧ b ≤ 0xEF then
      match contByte (if b = 0xE0 then 0xA0 else 0x80) (if b = 0xED then 0x9F else 0xBF) rest with
      | some (v2, rest2) =>
        match contByte 0x80 0xBF rest2 with
        | some (v3, rest3) =>
          (utf8DecodeAux fuel rest3).map
            (fun cs => Char.ofNat ((b - 0xE0) * 4096 + v2 * 64 + v3) :: cs)
        | none => none
      | none => none
    else if 0xF0 ≤ b ∧ b ≤ 0xF4 then
      match contByte (if b = 0xF0 then 0x90 else 0x80) (if b = 0xF4 then 0x8F else 0xBF) rest with
      | some (v2, rest2) =>
        match contByte 0x80 0xBF rest2 with
        | some (v3, rest3) =>
          match contByte 0x80 0xBF rest3 with
          | some (v4, rest4) =>
            (utf8DecodeAux fuel rest4).map
              (fun cs => Char.ofNat ((b - 0xF0) * 262144 + v2 * 4096 + v3 * 64 + v4) :: cs)
          | none => none
        | none => none
      | none => none
    else none

/-- UTF-8 validation and decoding (Rust `String::from_utf8`): `none` on any
invalid byte sequence — truncated sequences, bare continuation bytes,
overlong encodings, surrogates, and values above `0x10FFFF` all fail. The
byte length bounds the character count, so it serves as exact fuel. -/
def utf8Decode (bs : List Nat) : Option (List Char) := utf8DecodeAux bs.length bs

/-! ### Rust `str::lines`

Splits at `'\n'`, stripping one `'\r'` before each `'\n'`; a final fragment
without a terminating newline is yielded as-is (including any trailing
`'\r'`), and there is no trailing empty line. -/

/-- Remove one trailing `'\r'`, as `str::lines` does on `"\r\n"` endings. -/
def stripCR (l : List Char) : List Char :=
  match l.reverse with
  | '\r' :: t => t.reverse
  | _ => l

/-- Accumulator worker for `rustLines`; `acc` holds the current line reversed. -/
def rustLinesAux : List Char → List Char → List (List Char)
  | [], acc => if acc.isEmpty then [] else [acc.reverse]
  | c :: cs, acc =>
    if c = '\n' then stripCR acc.reverse :: rustLinesAux cs []
    else rustLinesAux cs (c :: acc)

/-- Rust `str::lines`, on the char-list model. -/
def rustLines (s : List Char) : List (List Char) := rustLinesAux s []

/-! ### JSON values and parser (model of `serde_json`) -/

/-- JSON documents as produced by `serde_json::from_str::<Value>`. Numbers
are kept as their raw token text: the engine never inspects numeric
values. Objects keep members in textual order; key lookup takes the last
occurrence, matching `serde_json`'s map insertion semantics on duplicate
keys. -/
inductive Json where
  | null
  | bool (b : Bool)
  | num (raw : List Char)
  | str (s : List Char)
  | arr (elems : List Json)
  | obj (members : List ((List Char) × Json))

/-- `Value::get(key)` on an object: `none` for non-objects and absent keys.
Last occurrence wins, as with `serde_json`'s map building. -/
def Json.get : Json → List Char → Option Json
  | .obj ms, k => (ms.reverse.find? (fun m => m.1 = k)).map (·.2)
  | _, _ => none

/-- `value[key]` (the `Index<&str>` impl): `Null` when missing or not an
object. -/
def Json.strIdx (j : Json) (k : List Char) : Json := (j.get k).getD .null

/-- `value[i]` (the `Index<usize>` impl): `Null` when out of bounds or not an
array. -/
def Json.natIdx : Json → Nat → Json
  | .arr es, i => es.getD i .null
  | _, _ => .null

/-- `Value::as_str`. -/
def Json.asStr : Json → Option (List Char)
  | .str s => some s
  | _ => none

/-- Every value except a number token; numbers are the only values whose
parse is delimited by end of input rather than by a closing character. -/
def Json.notNum : Json → Prop
  | .num _ => False
  | _ => True

/-- JSON whitespace (accepted by serde between tokens). -/
def isWsChar (c : Char) : Bool := c = ' ' || c = '\t' || c = '\n' || c = '\r'

/-- Skip leading JSON whitespace. -/
def skipWs : List Char → List Char
  | [] => []
  | c :: cs => if isWsChar c then skipWs cs else c :: cs

/-- ASCII digit test. -/
def isDigitChar (c : Char) : Bool := '0' ≤ c && c ≤ '9'

/-- Longest digit run at the front of the input. -/
def takeDigits : List Char → (List Char × List Char)
  | [] => ([], [])
  | c :: cs =>
    if isDigitChar c then
      let (d, r) := takeDigits cs
      (c :: d, r)
    else ([], c :: cs)

/-- Optional fraction part `.[0-9]+` of a JSON number. -/
def numFrac : List Char → Option (List Char × List Char)
  | '.' :: t =>
    match takeDigits t with
    | ([], _) => none
    | (d, r) => some ('.' :: d, r)
  | s => some ([], s)

/-- Optional sign at the start of an exponent. -/
def expSign : List Char → (List Char × List Char)
  | '+' :: u => (['+'], u)
  | '-' :: u => (['-'], u)
  | t => ([], t)

/-- Optional exponent part `[eE][+-]?[0-9]+` of a JSON number. -/
def numExp : List Char → Option (List Char × List Char)
  | c :: t =>
    if c = 'e' || c = 'E' then
      match takeDigits (expSign t).2 with
      | ([], _) => none
      | (d, r) => some (c :: ((expSign t).1 ++ d), r)
    else some ([], c :: t)
  | [] => some ([], [])

/-- Optional leading minus of a JSON number. -/
def negSign : List Char → (List Char × List Char)
  | '-' :: t => (['-'], t)
  | s => ([], s)

/-- JSON number token: `-? (0 | [1-9][0-9]*) frac? exp?`, returned as raw
text together with the unconsumed rest. -/
def parseNum (s : List Char) : Option (List Char × List Char) :=
  match (negSign s).2 with
  | [] => none
  | c :: t =>
    if c = '0' then
      match numFrac t with
      | none => none
      | some (f, r1) =>
        match numExp r1 with
        | none => none
        | some (e, r2) => some ((negSign s).1 ++ [c] ++ f ++ e, r2)
    else if isDigitChar c then
      match numFrac (takeDigits t).2 with
      | none => none
      | some (f, r1) =>
        match numExp r1 with
        | none => none
        | some (e, r2) => some ((negSign s).1 ++ (c :: (takeDigits t).1) ++ f ++ e, r2)
    else none

/-- Hex digit value. -/
def hexVal (c : Char) : Option Nat :=
  if '0' ≤ c ∧ c ≤ '9' then some (c.toNat - 48)
  else if 'a' ≤ c ∧ c ≤ 'f' then some (c.toNat - 87)
  else if 'A' ≤ c ∧ c ≤ 'F' then some (c.toNat - 55)
  else none

/-- Value of a four-hex-digit escape. -/
def hex4 (a b c d : Char) : Option Nat :=
  match hexVal a, hexVal b, hexVal c, hexVal d with
  | some v1, some v2, some v3, some v4 => some (v1 * 4096 + v2 * 256 + v3 * 16 + v4)
  | _, _, _, _ => none

/-- Body of a JSON string after the opening quote: decoded content plus the
rest after the closing quote. Control characters must be escaped; `\uXXXX`
is accepted for non-surrogate code points. -/
def parseStrBody : Nat → List Char → Option (List Char × List Char)
  | 0, _ => none
  | _ + 1, [] => none
  | fuel + 1, c :: r =>
    if c = '"' then some ([], r)
    else if c = '\\' then
      match r with
      | [] => none
      | e :: r2 =>
        if e = '"' ∨ e = '\\' ∨ e = '/' then
          (parseStrBody fuel r2).map (fun (cs, rest) => (e :: cs, rest))
        else if e = 'b' then
          (parseStrBody fuel r2).map (fun (cs, rest) => ('\x08' :: cs, rest))
        else if e = 'f' then
          (parseStrBody fuel r2).map (fun (cs, rest) => ('\x0C' :: cs, rest))
        else if e = 'n' then
          (parseStrBody fuel r2).map (fun (cs, rest) => ('\n' :: cs, rest))
        else if e = 'r' then
          (parseStrBody fuel r2).map (fun (cs, rest) => ('\r' :: cs, rest))
        else if e = 't' then
          (parseStrBody fuel r2).map (fun (cs, rest) => ('\t' :: cs, rest))
        else if e = 'u' then
          match r2 with
          | h1 :: h2 :: h3 :: h4 :: r3 =>
            match hex4 h1 h2 h3 h4 with
            | some n =>
              if 0xD800 ≤ n ∧ n ≤ 0xDFFF then none
              else (parseStrBody fuel r3).map (fun (cs, rest) => (Char.ofNat n :: cs, rest))
            | none => none
          | _ => none
        else none
    else if c.toNat < 0x20 then none
    else (parseStrBody fuel r).map (fun (cs, rest) => (c :: cs, rest))

mutual

/-- JSON value, preceded by optional whitespace; returns the value and the
rest of the input immediately after it. -/
def parseVal : Nat → List Char → Option (Json × List Char)
  | 0, _ => none
  | fuel + 1, s =>
    match skipWs s with
    | [] => none
    | c :: r =>
      if c = '\x7b' then parseObjStart fuel r
      else if c = '[' then parseArrStart fuel r
      else if c = '"' then (parseStrBody fuel r).map (fun (cs, rest) => (.str cs, rest))
      else if c = 't' then
        match r with
        | 'r' :: 'u' :: 'e' :: rest => some (.bool true, rest)
        | _ => none
      else if c = 'f' then
        match r with
        | 'a' :: 'l' :: 's' :: 'e' :: rest => some (.bool false, rest)
        | _ => none
      else if c = 'n' then
        match r with
        | 'u' :: 'l' :: 'l' :: rest => some (.null, rest)
        | _ => none
      else
        match parseNum (c :: r) with
        | some (raw, rest) => some (.num raw, rest)
        | none => none

/-- Object innards right after `'\x7b'`: either an immediate `'\x7d'` or a
nonempty member list. -/
def parseObjStart : Nat → List Char → Option (Json × List Char)
  | 0, _ => none
  | fuel + 1, s =>
    match skipWs s with
    | '\x7d' :: rest => some (.obj [], rest)
    | _ => parseMembers fuel s []

/-- Nonempty member list of an object, accumulating parsed members. -/
def parseMembers : Nat → List Char → List ((List Char) × Json) →
    Option (Json × List Char)
  | 0, _, _ => none
  | fuel + 1, s, acc =>
    match skipWs s with
    | '"' :: r =>
      match parseStrBody fuel r with
      | none => none
      | some (key, r2) =>
        match skipWs r2 with
        | ':' :: r3 =>
          match parseVal fuel r3 with
          | none => none
          | some (v, r4) =>
            match skipWs r4 with
            | ',' :: r5 => parseMembers fuel r5 (acc ++ [(key, v)])
            | '\x7d' :: r5 => some (.obj (acc ++ [(key, v)]), r5)
            | _ => none
        | _ => none
    | _ => none

/-- Array innards right after `'['`. -/
def parseArrStart : Nat → List Char → Option (Json × List Char)
  | 0, _ => none
  | fuel + 1, s =>
    match skipWs s with
    | ']' :: rest => some (.arr [], rest)
    | _ => parseElems fuel s []

/-- Nonempty element list of an array. -/
def parseElems : Nat → List Char → List Json → Option (Json × List Char)
  | 0, _, _ => none
  | fuel + 1, s, acc =>
    match parseVal fuel s with
    | none => none
    | some (v, r) =>
      match skipWs r with
      | ',' :: r2 => parseElems fuel r2 (acc ++ [v])
      | ']' :: r2 => some (.arr (acc ++ [v]), r2)
      | _ => none

end

/-- Fuel bound that is ample for any input of length `n`. -/
def jsonFuel (n : Nat) : Nat := 2 * n + 8

/-- Model of `serde_json::from_str::<Value>`: a single JSON document,
optionally surrounded by whitespace, with nothing after it. -/
def parseJson (s : List Char) : Option Json :=
  match parseVal (jsonFuel s.length) s with
  | some (v, rest) => if skipWs rest = [] then some v else none
  | none => none

/-! ### The streaming request engine (`send_request` in `src/api.rs`) -/

/-- The retry configuration passed to `send_request`
(`retry_enabled: bool, max_retries: i32`). -/
structure Cfg where
  retryEnabled : Bool
  maxRetries : Int
deriving DecidableEq, Repr

/-- Mutable state of one `send_request` call while a response body is being
consumed: `retry_count`, `incomplete_data` (declared before the attempt
loop, so it survives retries), `current_message` (reset per 2xx response),
and the ordered list of strings sent on `tx` so far. -/
structure EngSt where
  retryCount : Nat
  incomplete : List Char
  current : List Char
  events : List (List Char)
deriving DecidableEq, Repr

/-- Early returns possible while processing lines of a 2xx body. -/
inductive LineStop where
  | done
  | errExhausted
deriving DecidableEq, Repr

/-- Result of processing one line (an iteration of `for line in
text.lines()`): either fall through to the next line or return from
`send_request`. -/
inductive StepRes where
  | next (st : EngSt)
  | stop (st : EngSt) (r : LineStop)
deriving DecidableEq, Repr

/-- The marker `"data: "`. -/
def dataMarker : List Char := "data: ".toList

/-- The reserved stream-terminator frame body. -/
def doneBody : List Char := "[DONE]".toList

/-- The terminal channel signal. -/
def doneSignal : List Char := "__STREAM_DONE__".toList

/-- Progress notice sent before re-attempting after a 429. -/
def notice429 (n : Nat) : List Char :=
  "遇到频率限制，正在进行第 ".toList ++ natStr n ++ " 次重试...".toList

/-- Progress notice sent on an in-stream API error when retries remain. -/
def noticeApi (n : Nat) : List Char :=
  "遇到API错误，正在进行第 ".toList ++ natStr n ++ " 次重试...".toList

/-- Progress notice sent on a body transport error when retries remain. -/
def noticeNet (n : Nat) : List Char :=
  "遇到网络错误，正在进行第 ".toList ++ natStr n ++ " 次重试...".toList

/-- The terminal message built from an in-stream `error` object when no
retries remain (lines 102–117 of `api.rs`). -/
def apiErrMsg (rc : Nat) (err : Json) : List Char :=
  let msg := (err.strIdx ("message".toList)).asStr.getD ("未知错误".toList)
  match err.get ("metadata".toList) with
  | some metadata =>
    match metadata.get ("raw".toList) with
    | some raw =>
      "API错误 (重试".toList ++ natStr rc ++ "次后): ".toList ++ msg ++
        " - 详细信息: ".toList ++ (raw.asStr.getD [])
    | none => "API错误 (重试".toList ++ natStr rc ++ "次后): ".toList ++ msg
  | none => "API错误 (重试".toList ++ natStr rc ++ "次后): ".toList ++ msg

/-- One iteration of the `for line in text.lines()` loop in `send_request`:
append the line to `incomplete_data`; if the buffer contains `"data: "`,
slice off everything after the first marker and interpret it as `[DONE]`,
a JSON frame (clearing the buffer on parse success), or an incomplete
frame (keeping the buffer on parse failure). -/
def processLine (cfg : Cfg) (st : EngSt) (line : List Char) : StepRes :=
  let inc := st.incomplete ++ line
  if containsSub inc dataMarker then
    let index := (findSub inc dataMarker).getD 0
    let data := inc.drop (index + 6)
    if data = doneBody then
      .stop { st with incomplete := inc, events := st.events ++ [doneSignal] } .done
    else
      match parseJson data with
      | some json =>
        match json.get ("error".toList) with
        | some errVal =>
          if cfg.retryEnabled ∧ (st.retryCount : Int) < cfg.maxRetries then
            .next { st with
                    incomplete := []
                    retryCount := st.retryCount + 1
                    events := st.events ++ [noticeApi (st.retryCount + 1)] }
          else
            .stop { st with
                    incomplete := []
                    events := st.events ++ [apiErrMsg st.retryCount errVal, doneSignal] }
              .errExhausted
        | none =>
          match (((json.strIdx ("choices".toList)).natIdx 0).strIdx
              ("delta".toList)).strIdx ("content".toList) |>.asStr with
          | some content =>
            .next { st with
                    incomplete := []
                    current := st.current ++ content
                    events := st.events ++ [st.current ++ content] }
          | none => .next { st with incomplete := [] }
      | none => .next { st with incomplete := inc }
  else .next { st with incomplete := inc }

/-- Fold `processLine` over the lines of one chunk, with early return. -/
def processLines (cfg : Cfg) (st : EngSt) : List (List Char) → StepRes
  | [] => .next st
  | l :: ls =>
    match processLine cfg st l with
    | .next st1 => processLines cfg st1 ls
    | .stop st1 r => .stop st1 r

/-- One chunk yielded by `response.bytes_stream()`: either bytes or a
transport error (whose rendered message is carried for the fatal case). -/
inductive ChunkRes where
  | ok (bytes : List Nat)
  | err (msg : List Char)
deriving DecidableEq, Repr

/-- Result of the `while let Some(chunk_result)` loop over a response body. -/
inductive ChunksOut where
  | more (st : EngSt)
  | stopped (st : EngSt) (r : LineStop)
  | stopErr (st : EngSt) (msg : List Char)
deriving DecidableEq, Repr

/-- The body-consumption loop of `send_request`: a byte chunk that is not
valid UTF-8 is silently skipped; a transport error mid-body increments the
retry counter and keeps polling the same stream when budget remains (the
`continue` at line 146 of `api.rs` targets the `while` loop, not the outer
attempt loop), and otherwise returns `ApiError::Other`. -/
def processChunks (cfg : Cfg) (st : EngSt) : List ChunkRes → ChunksOut
  | [] => .more st
  | .ok bytes :: rest =>
    match utf8Decode bytes with
    | some text =>
      match processLines cfg st (rustLines text) with
      | .next st1 => processChunks cfg st1 rest
      | .stop st1 r => .stopped st1 r
    | none => processChunks cfg st rest
  | .err m :: rest =>
    if cfg.retryEnabled ∧ (st.retryCount : Int) < cfg.maxRetries then
      processChunks cfg
        { st with
          retryCount := st.retryCount + 1
          events := st.events ++ [noticeNet (st.retryCount + 1)] } rest
    else .stopErr st m

/-- The `ApiError` enum of `api.rs`. `other` covers `ApiError::Other` (both
the pre-response `send()` failure and a mid-body stream error); the carried
text is the rendered reqwest error message. -/
inductive ApiError where
  | tooManyRequests
  | other (msg : List Char)
  | httpError (status : Nat)
deriving DecidableEq, Repr

/-- How one HTTP attempt behaves: `sendErr` models a transport failure of
`client.post(..).send().await`; `resp` a response with the given status
whose body (consulted only on 2xx) yields the given chunk sequence. -/
inductive Attempt where
  | sendErr (msg : List Char)
  | resp (status : Nat) (body : List ChunkRes)
deriving DecidableEq, Repr

/-- How `send_request` returned: `okDone` via the `[DONE]` frame, 
`okErrExhausted` via the in-stream error path that sends the fatal message
itself, `okStreamEnd` via the body ending (line 153), `fatal e` via
`Err(e)`. `fuelOut` is unreachable for the fuel used by `sendRequest`: the
attempt loop repeats only when `retry_count < max_retries` and the counter
is incremented, so at most `max_retries + 1` iterations occur. -/
inductive RetVal where
  | okDone
  | okErrExhausted
  | okStreamEnd
  | fatal (e : ApiError)
  | fuelOut
deriving DecidableEq, Repr

/-- Outcome of `send_request`: the strings sent on `tx` in order, the return
value, and how many HTTP attempts were issued. -/
structure RunResult where
  events : List (List Char)
  ret : RetVal
  attempts : Nat
deriving DecidableEq, Repr

/-- `reqwest::StatusCode::is_success`: 2xx. -/
def isSuccess (s : Nat) : Bool := 200 ≤ s && s ≤ 299

/-- The `loop` of `send_request`. `i` is the index of the attempt about to
be issued, `env i` its outcome. The only path that re-enters the loop is
the 429 branch; in-stream API errors and body transport errors merely skip
to the next line / next chunk of the same response. -/
def attemptLoop (cfg : Cfg) (env : Nat → Attempt) :
    Nat → Nat → Nat → List Char → List (List Char) → RunResult
  | 0, i, _, _, ev => ⟨ev, .fuelOut, i⟩
  | fuel + 1, i, rc, inc, ev =>
    match env i with
    | .sendErr m => ⟨ev, .fatal (.other m), i + 1⟩
    | .resp status body =>
      if isSuccess status then
        match processChunks cfg ⟨rc, inc, [], ev⟩ body with
        | .more st => ⟨st.events, .okStreamEnd, i + 1⟩
        | .stopped st .done => ⟨st.events, .okDone, i + 1⟩
        | .stopped st .errExhausted => ⟨st.events, .okErrExhausted, i + 1⟩
        | .stopErr st m => ⟨st.events, .fatal (.other m), i + 1⟩
      else if status = 429 then
        if cfg.retryEnabled ∧ (rc : Int) < cfg.maxRetries then
          attemptLoop cfg env fuel (i + 1) (rc + 1) inc (ev ++ [notice429 (rc + 1)])
        else ⟨ev, .fatal .tooManyRequests, i + 1⟩
      else ⟨ev, .fatal (.httpError status), i + 1⟩

/-- `send_request`: `retry_count` and `incomplete_data` start empty and the
loop is entered. The fuel `maxRetries.toNat + 1` bounds the number of loop
iterations, which the 429 guard makes sufficient. -/
def sendRequest (cfg : Cfg) (env : Nat → Attempt) : RunResult :=
  attemptLoop cfg env (cfg.maxRetries.toNat + 1) 0 0 [] []

/-- `Display` for `ApiError` (lines 14–22 of `api.rs`). For `HttpError` the
source formats `res.status()`, which renders the numeric code (followed by
the canonical reason phrase, elided here since no claim depends on it). -/
def displayApiError : ApiError → List Char
  | .tooManyRequests => "请求频率限制".toList
  | .other m => "请求错误: ".toList ++ m
  | .httpError s => "HTTP错误: ".toList ++ natStr s

/-- The caller's handling of `send_request`'s return value (`send_message`,
`src/ui.rs` lines 490–503): on `Err(e)` it sends `"错误: {e}"` followed by
the terminal signal; on `Ok` it sends nothing further. The resulting list
is the complete event sequence of one send operation as the consumer sees
it. -/
def sendMessageEvents (cfg : Cfg) (env : Nat → Attempt) : List (List Char) :=
  let r := sendRequest cfg env
  match r.ret with
  | .fatal e => r.events ++ ["错误: ".toList ++ displayApiError e, doneSignal]
  | _ => r.events

/-! ### Well-formed SSE streams (claim C1)

A well-formed stream is a sequence of logical lines `data: <body>\n` where
every body is either the literal `[DONE]` or the text of one complete JSON
object (no surrounding trailing whitespace, no raw newline or carriage
return — a raw control character inside a JSON string is invalid JSON
anyway, and a logical SSE line cannot contain a line break). -/

/-- Is this JSON value an object? -/
def isJsonObj : Json → Bool
  | .obj _ => true
  | _ => false

/-- `b` is the complete text of a JSON object: the parser consumes all of
`b`, and `b` contains no line-break characters. -/
def wfBody (b : List Char) : Bool :=
  (match parseVal (jsonFuel b.length) b with
   | some (v, []) => isJsonObj v
   | _ => false) && !(b.contains '\n') && !(b.contains '\r')

/-- A legal line body of a well-formed stream. -/
def WfLine (b : List Char) : Prop := wfBody b = true ∨ b = doneBody

instance (b : List Char) : Decidable (WfLine b) := by
  unfold WfLine; infer_instance

/-- One full logical line, without its terminating newline. -/
def fullLine (b : List Char) : List Char := dataMarker ++ b

/-- The text of a well-formed stream with the given line bodies. -/
def streamText : List (List Char) → List Char
  | [] => []
  | b :: rest => fullLine b ++ '\n' :: streamText rest

/-- Position of the decoder inside a well-formed stream: in the middle of
the line for body `b` (`p` consumed and buffered, `q` still to come),
right after a line's body but before its newline, or at the end. -/
inductive DecPos where
  | mid (b : List Char) (rest : List (List Char)) (p q : List Char)
  | afterNl (rest : List (List Char))
  | atEnd

/-- The text still to be fed at a given position. -/
def remText : DecPos → List Char
  | .mid _ rest _ q => q ++ '\n' :: streamText rest
  | .afterNl rest => '\n' :: streamText rest
  | .atEnd => []

/-- The buffered partial line (`incomplete_data`) at a given position. -/
def incOf : DecPos → List Char
  | .mid _ _ p _ => p
  | _ => []

/-- The line bodies not yet fully processed at a given position. -/
def bodiesOf : DecPos → List (List Char)
  | .mid b rest _ _ => b :: rest
  | .afterNl rest => rest
  | .atEnd => []

/-- Well-formedness of a decoder position. -/
def posOk : DecPos → Prop
  | .mid b rest p q => WfLine b ∧ (∀ x ∈ rest, WfLine x) ∧ p ++ q = fullLine b ∧ q ≠ []
  | .afterNl rest => ∀ x ∈ rest, WfLine x
  | .atEnd => True

/-! ### Concrete scenario inputs -/

/-- A content frame line carrying the given delta text. -/
def contentFrame (txt : String) : List Char :=
  "data: \x7b\"choices\":[\x7b\"delta\":\x7b\"content\":\"".toList ++ txt.toList ++
    "\"\x7d\x7d]\x7d\n".toList

/-- An error frame line, as in spec Scenario C. -/
def errorFrame : List Char :=
  "data: \x7b\"error\":\x7b\"message\":\"overloaded\"\x7d\x7d\n".toList

/-- The terminator line. -/
def doneLine : List Char := "data: [DONE]\n".toList

/-- Environment for claim C7: one 2xx response streaming `Hel`, `lo`,
`[DONE]`. -/
def c7Env : Nat → Attempt := fun _ =>
  .resp 200 [.ok (utf8Encode (contentFrame "Hel" ++ contentFrame "lo" ++ doneLine))]

/-- Environment for claim C2: the first attempt's 2xx body carries content,
then an error frame, then more content and `[DONE]`; any further attempt
would stream `second`. -/
def c2Env : Nat → Attempt := fun i =>
  if i = 0 then
    .resp 200 [.ok (utf8Encode (contentFrame "Hi" ++ errorFrame ++ contentFrame "!!" ++ doneLine))]
  else .resp 200 [.ok (utf8Encode (contentFrame "second" ++ doneLine))]

/-- Environment for claim C9: the first attempt's body yields content `A`,
then a transport error, then content `B` and `[DONE]` on the same stream;
any further attempt would stream `second`. -/
def c9Env : Nat → Attempt := fun i =>
  if i = 0 then
    .resp 200 [.ok (utf8Encode (contentFrame "A")),
      .err ("connection reset by peer".toList),
      .ok (utf8Encode (contentFrame "B" ++ doneLine))]
  else .resp 200 [.ok (utf8Encode (contentFrame "second" ++ doneLine))]

/-- Environment for claim C4: a 2xx body that ends without `[DONE]`. -/
def c4Env : Nat → Attempt := fun _ =>
  .resp 200 [.ok (utf8Encode (contentFrame "Hi"))]

/-- Environment for claim C3: every attempt fails at `send()`. -/
def c3Env : Nat → Attempt := fun _ => .sendErr ("error sending request".toList)

/-- Environment returning 429 on every attempt. -/
def c5Env : Nat → Attempt := fun _ => .resp 429 []

/-- Environment returning 500 on every attempt. -/
def c6Env : Nat → Attempt := fun _ => .resp 500 []

/-- Environment for the C8 witness: a 2xx body whose first frame is an
error object, with retries disabled. -/
def c8Env : Nat → Attempt := fun _ => .resp 200 [.ok (utf8Encode errorFrame)]

/-- A frame body with neither an `error` field nor a string at
`choices[0].delta.content` (a role-only delta), for claim C10. -/
def roleBody : List Char :=
  "\x7b\"choices\":[\x7b\"delta\":\x7b\"role\":\"assistant\"\x7d\x7d]\x7d".toList

/-- Line bodies of the C1 counterexample stream: one content frame whose
delta contains a two-byte UTF-8 character, then the terminator. -/
def c1Bodies : List (List Char) :=
  ["\x7b\"choices\":[\x7b\"delta\":\x7b\"content\":\"é\"\x7d\x7d]\x7d".toList, doneBody]

/-- The C1 counterexample stream as bytes. -/
def c1Bytes : List Nat := utf8Encode (streamText c1Bodies)

/-- First chunk of the C1 counterexample partition: cut right after the
lead byte `0xC3` of `é`, in the middle of the character. -/
def c1CutA : List Nat := c1Bytes.take 40

/-- Second chunk of the C1 counterexample partition. -/
def c1CutB : List Nat := c1Bytes.drop 40

/-- The decoder position at the very start of a stream with the given
line bodies. -/
def startPos : List (List Char) → DecPos
  | [] => .atEnd
  | b :: rest => .mid b rest [] (fullLine b)

/-! ### Theorems -/

set_option maxRecDepth 40000 in
/-- Claim C7 (confirmed): a 2xx stream delivering the frames
`delta:"Hel"`, `delta:"lo"`, then `[DONE]` makes `send_request` send
exactly the snapshot `Hel`, the snapshot `Hello`, then `__STREAM_DONE__`,
in that order, returning immediately after the terminator so nothing
follows the terminal signal; one HTTP attempt is issued. -/
theorem c7_terminator_event_order :
    sendRequest ⟨true, 3⟩ c7Env =
      ⟨["Hel".toList, "Hello".toList, doneSignal], .okDone, 1⟩ := by
  decide

set_option maxRecDepth 40000 in
/-- Claim C2 (code bug): with `retry_enabled = true, max_retries = 1`, a
2xx stream whose frames are content `Hi`, an `error` object, content `!!`,
then `[DONE]` leads to: the retry counter incremented and the notice
emitted, but the same HTTP response is kept being read (the `continue` at
line 100 of `api.rs` targets the `for line` loop, not the outer attempt
loop). Only one HTTP attempt is ever issued, and the accumulated content
`Hi` is kept and extended to `Hi!!` — a second attempt would have streamed
`second` instead. -/
theorem c2_error_frame_keeps_same_response :
    sendRequest ⟨true, 1⟩ c2Env =
      ⟨["Hi".toList, noticeApi 1, "Hi!!".toList, doneSignal], .okDone, 1⟩ := by
  decide

set_option maxRecDepth 40000 in
/-- Claim C9 (code bug): with `retry_enabled = true, max_retries = 1`, a
transport error between two body chunks of a 2xx response increments the
counter and emits the notice, but keeps polling the same body stream (the
`continue` at line 146 of `api.rs` targets the `while` loop): no new HTTP
attempt is issued and content from before the error is kept. -/
theorem c9_body_error_keeps_same_stream :
    sendRequest ⟨true, 1⟩ c9Env =
      ⟨["A".toList, noticeNet 1, "AB".toList, doneSignal], .okDone, 1⟩ := by
  decide

set_option maxRecDepth 40000 in
/-- Claim C3 (counterexample): with `retry_enabled = true` and
`max_retries = 3`, a transport failure while issuing the request
terminates the send at once with the fatal transport error — one attempt,
no retry notice — contradicting the claimed retry. -/
theorem c3_counterexample :
    sendRequest ⟨true, 3⟩ c3Env =
      ⟨[], .fatal (.other ("error sending request".toList)), 1⟩ := by
  decide

/-- Claim C3 (amended): a transport-level failure while issuing the HTTP
request or awaiting the response headers is never retried: for every
configuration, the `?` on line 55 of `api.rs` propagates the error
immediately after the first attempt. -/
theorem c3_transport_send_failure_never_retried (cfg : Cfg) (env : Nat → Attempt)
    (m : List Char) (h : env 0 = .sendErr m) :
    sendRequest cfg env = ⟨[], .fatal (.other m), 1⟩ := by
  simp [sendRequest, attemptLoop, h]

/-- Witness for `c3_transport_send_failure_never_retried`. -/
theorem c3_transport_send_failure_never_retried_witness :
    sendRequest ⟨true, 3⟩ c3Env =
      ⟨[], .fatal (.other ("error sending request".toList)), 1⟩ :=
  c3_transport_send_failure_never_retried ⟨true, 3⟩ c3Env _ rfl

set_option maxRecDepth 40000 in
/-- Claim C4 (counterexample): a 2xx body that ends without `[DONE]` makes
`send_request` return `Ok` (stream-end path, line 153 of `api.rs`) without
sending `__STREAM_DONE__`, and the caller sends the terminal signal only
on `Err`: the consumer never receives a stream-closed signal. -/
theorem c4_counterexample :
    sendMessageEvents ⟨true, 1⟩ c4Env = ["Hi".toList] ∧
      (sendRequest ⟨true, 1⟩ c4Env).ret = .okStreamEnd ∧
      doneSignal ∉ sendMessageEvents ⟨true, 1⟩ c4Env := by
  decide

/-- Claim C4 (amended): when `send_request` finishes because the body ended
without the terminator, it returns `Ok` and the caller appends nothing to
the event sequence — in particular no terminal `__STREAM_DONE__` signal is
emitted on this path. -/
theorem c4_stream_end_without_done_adds_no_terminal (cfg : Cfg) (env : Nat → Attempt)
    (h : (sendRequest cfg env).ret = .okStreamEnd) :
    sendMessageEvents cfg env = (sendRequest cfg env).events := by
  simp only [sendMessageEvents]
  rw [h]

set_option maxRecDepth 40000 in
/-- Witness for `c4_stream_end_without_done_adds_no_terminal`. -/
theorem c4_stream_end_without_done_adds_no_terminal_witness :
    (sendRequest ⟨true, 1⟩ c4Env).ret = .okStreamEnd ∧
      sendMessageEvents ⟨true, 1⟩ c4Env = (sendRequest ⟨true, 1⟩ c4Env).events :=
  ⟨by decide, c4_stream_end_without_done_adds_no_terminal ⟨true, 1⟩ c4Env (by decide)⟩

/-- Claim C6 (confirmed): a non-429 non-2xx status terminates the send
after exactly one attempt with a fatal error carrying the status code,
for every retry configuration. -/
theorem c6_hard_status_never_retried (cfg : Cfg) (env : Nat → Attempt)
    (s : Nat) (body : List ChunkRes) (h : env 0 = .resp s body)
    (hs : isSuccess s = false) (h429 : s ≠ 429) :
    sendRequest cfg env = ⟨[], .fatal (.httpError s), 1⟩ := by
  simp [sendRequest, attemptLoop, h, hs, h429]

/-- Witness for `c6_hard_status_never_retried`: a single 500 with retries
enabled. -/
theorem c6_hard_status_never_retried_witness :
    sendRequest ⟨true, 3⟩ c6Env = ⟨[], .fatal (.httpError 500), 1⟩ :=
  c6_hard_status_never_retried ⟨true, 3⟩ c6Env 500 [] rfl (by decide) (by decide)

set_option maxRecDepth 100000 in
/-- Claim C1 (counterexample): the stream with bodies `c1Bodies` is
well-formed (a valid JSON object frame and the `[DONE]` terminator), and
`c1CutA, c1CutB` is a partition of its bytes; yet feeding the two chunks
produces a different outcome than feeding the whole stream at once: the
cut falls inside the two-byte character `é`, both chunks fail UTF-8
validation and are silently dropped, so no frame at all is recognized,
while the single-chunk run recognizes the content frame and the
terminator. -/
theorem c1_counterexample :
    (∀ b ∈ c1Bodies, WfLine b) ∧
      c1CutA ++ c1CutB = utf8Encode (streamText c1Bodies) ∧
      processChunks ⟨true, 3⟩ ⟨0, [], [], []⟩ [.ok c1CutA, .ok c1CutB] ≠
        processChunks ⟨true, 3⟩ ⟨0, [], [], []⟩ [.ok (utf8Encode (streamText c1Bodies))] := by
  decide

/-- Worker lemma for claim C5: from a state with `retry_count = rc` and
`N - rc = d` retries left, an all-429 environment yields exactly `d + 1`
further attempts and the rate-limit fatal error. -/
theorem attemptLoop_all429 (N : Nat) (env : Nat → Attempt)
    (henv : ∀ i, ∃ body, env i = .resp 429 body) :
    ∀ (d i rc : Nat) (inc : List Char) (ev : List (List Char)), rc + d = N →
      ∃ ev2, ∀ fuel, d < fuel →
        attemptLoop ⟨true, (N : Int)⟩ env fuel i rc inc ev =
          ⟨ev2, .fatal .tooManyRequests, i + d + 1⟩ := by
  intro d
  induction d with
  | zero =>
    intro i rc inc ev hrc
    refine ⟨ev, ?_⟩
    intro fuel hf
    obtain ⟨fuel0, rfl⟩ : ∃ k, fuel = k + 1 := ⟨fuel - 1, by omega⟩
    obtain ⟨body, hb⟩ := henv i
    have hlt : ¬((rc : Int) < (N : Int)) := by
      simp only [Nat.add_zero] at hrc
      omega
    simp [attemptLoop, hb, isSuccess, hlt]
  | succ d ih =>
    intro i rc inc ev hrc
    obtain ⟨ev2, h2⟩ := ih (i + 1) (rc + 1) inc (ev ++ [notice429 (rc + 1)]) (by omega)
    refine ⟨ev2, ?_⟩
    intro fuel hf
    obtain ⟨fuel0, rfl⟩ : ∃ k, fuel = k + 1 := ⟨fuel - 1, by omega⟩
    obtain ⟨body, hb⟩ := henv i
    have hlt : (rc : Int) < (N : Int) := by omega
    rw [show i + (d + 1) + 1 = (i + 1) + d + 1 by omega]
    simp [attemptLoop, hb, isSuccess, hlt, h2 fuel0 (by omega)]

/-- Claim C5 (confirmed): with `retry_enabled = true` and
`max_retries = N`, a send in which every HTTP attempt returns 429 issues
exactly `N + 1` attempts and terminates with `ApiError::TooManyRequests`. -/
theorem c5_retry_bound_on_persistent_429 (N : Nat) (env : Nat → Attempt)
    (henv : ∀ i, ∃ body, env i = .resp 429 body) :
    (sendRequest ⟨true, (N : Int)⟩ env).ret = .fatal .tooManyRequests ∧
      (sendRequest ⟨true, (N : Int)⟩ env).attempts = N + 1 := by
  obtain ⟨ev2, h⟩ := attemptLoop_all429 N env henv N 0 0 [] [] (by omega)
  have hfuel : ((N : Int)).toNat + 1 = N + 1 := by simp
  unfold sendRequest
  simp only [Cfg.maxRetries] at *
  rw [hfuel, h (N + 1) (by omega)]
  exact ⟨rfl, by show 0 + N + 1 = N + 1; omega⟩

/-- Witness for `c5_retry_bound_on_persistent_429` at `N = 2`. -/
theorem c5_retry_bound_on_persistent_429_witness :
    (sendRequest ⟨true, (2 : Nat)⟩ c5Env).ret = .fatal .tooManyRequests ∧
      (sendRequest ⟨true, (2 : Nat)⟩ c5Env).attempts = 2 + 1 :=
  c5_retry_bound_on_persistent_429 2 c5Env (fun _ => ⟨[], rfl⟩)

/-- A pattern is found at index 0 of any list it starts. -/
theorem leadsWith_append (pat rest : List Char) : leadsWith pat (pat ++ rest) = true := by
  induction pat with
  | nil => rfl
  | cons a as ih => simp [leadsWith, ih]

/-- `findSub` returns index 0 when the pattern sits at the front. -/
theorem findSub_zero (pat rest : List Char) : findSub (pat ++ rest) pat = some 0 := by
  unfold findSub
  simp [leadsWith_append]

/-- Claim C10 (confirmed): a frame that parses as JSON but has no `error`
field and no string at `choices[0].delta.content` produces no event and no
state change beyond clearing the decoder buffer: with an empty buffer,
processing its line returns the state unchanged. -/
theorem c10_contentless_frame_emits_nothing (cfg : Cfg) (st : EngSt)
    (body : List Char) (j : Json)
    (h0 : st.incomplete = [])
    (h1 : parseJson body = some j)
    (h2 : j.get ("error".toList) = none)
    (h3 : ((((j.strIdx ("choices".toList)).natIdx 0).strIdx ("delta".toList)).strIdx
      ("content".toList)).asStr = none) :
    processLine cfg st (dataMarker ++ body) = .next st := by
  have hne : body ≠ doneBody := by
    intro he
    have hb : (parseJson body).isSome = true := by rw [h1]; rfl
    rw [he] at hb
    exact absurd hb (by decide)
  have hfind : findSub (dataMarker ++ body) dataMarker = some 0 := findSub_zero _ _
  have hdrop : (dataMarker ++ body).drop (0 + 6) = body := by
    rw [show (0 + 6) = dataMarker.length from rfl]
    exact List.drop_left _ _
  simp only [processLine, h0, List.nil_append, containsSub, hfind, Option.isSome_some,
    Option.getD_some, if_true, hdrop, hne, if_false, h1, h2, h3]
  cases st with
  | mk rc inc cur ev =>
    simp at h0
    simp [h0]

set_option maxRecDepth 10000 in
/-- Witness for `c10_contentless_frame_emits_nothing`: a role-only delta
frame. -/
theorem c10_contentless_frame_emits_nothing_witness :
    processLine ⟨true, 3⟩ ⟨0, [], [], []⟩ (dataMarker ++ roleBody) = .next ⟨0, [], [], []⟩ :=
  c10_contentless_frame_emits_nothing ⟨true, 3⟩ ⟨0, [], [], []⟩ roleBody
    ((parseJson roleBody).getD .null) rfl rfl rfl rfl


/-- If one line step ends in the error-exhausted return, the resulting
event list ends with the fatal message immediately followed by the
terminal signal (lines 120–121 of `api.rs`). -/
theorem processLine_errExhausted_events (cfg : Cfg) (st st1 : EngSt) (l : List Char)
    (h : processLine cfg st l = .stop st1 .errExhausted) :
    ∃ pre m, st1.events = pre ++ [m, doneSignal] := by
  simp only [processLine] at h
  split at h
  · split at h
    · cases h
    · split at h
      · split at h
        · split at h
          · cases h
          · rename_i errVal heqe hneg
            cases h
            exact ⟨st.events, apiErrMsg st.retryCount errVal, by simp⟩
        · split at h <;> cases h
      · cases h
  · cases h

/-- Lifting of `processLine_errExhausted_events` through a line list. -/
theorem processLines_errExhausted_events (cfg : Cfg) :
    ∀ (L : List (List Char)) (st st1 : EngSt),
      processLines cfg st L = .stop st1 .errExhausted →
      ∃ pre m, st1.events = pre ++ [m, doneSignal] := by
  intro L
  induction L with
  | nil => intro st st1 h; cases h
  | cons l ls ih =>
    intro st st1 h
    simp only [processLines] at h
    cases hpl : processLine cfg st l with
    | next st2 =>
      rw [hpl] at h
      exact ih st2 st1 h
    | stop st2 r =>
      rw [hpl] at h
      injection h with h1 h2
      subst h1
      subst h2
      exact processLine_errExhausted_events cfg st st2 l hpl

/-- Lifting through the chunk loop. -/
theorem processChunks_errExhausted_events (cfg : Cfg) :
    ∀ (chunks : List ChunkRes) (st st1 : EngSt),
      processChunks cfg st chunks = .stopped st1 .errExhausted →
      ∃ pre m, st1.events = pre ++ [m, doneSignal] := by
  intro chunks
  induction chunks with
  | nil => intro st st1 h; cases h
  | cons c rest ih =>
    intro st st1 h
    cases c with
    | ok bytes =>
      cases hd : utf8Decode bytes with
      | some text =>
        simp only [processChunks, hd] at h
        cases hl : processLines cfg st (rustLines text) with
        | next st2 =>
          simp only [hl] at h
          exact ih st2 st1 h
        | stop st2 r =>
          simp only [hl] at h
          cases r with
          | done => cases h
          | errExhausted =>
            injection h with h1 h2
            subst h1
            exact processLines_errExhausted_events cfg _ st st2 hl
      | none =>
        simp only [processChunks, hd] at h
        exact ih st st1 h
    | err m =>
      simp only [processChunks] at h
      split at h
      · exact ih _ st1 h
      · cases h

/-- Lifting through the attempt loop: whenever `send_request` returns via
the in-stream error-exhausted path, its event list ends with the fatal
message and the terminal signal. -/
theorem attemptLoop_errExhausted_events (cfg : Cfg) (env : Nat → Attempt) :
    ∀ (fuel i rc : Nat) (inc : List Char) (ev : List (List Char)) (res : RunResult),
      attemptLoop cfg env fuel i rc inc ev = res →
      res.ret = .okErrExhausted →
      ∃ pre m, res.events = pre ++ [m, doneSignal] := by
  intro fuel
  induction fuel with
  | zero =>
    intro i rc inc ev res h0 hret
    cases h0
    simp [attemptLoop] at hret
  | succ fuel ih =>
    intro i rc inc ev res h0 hret
    simp only [attemptLoop] at h0
    cases henv : env i with
    | sendErr m =>
      simp only [henv] at h0
      cases h0
      simp at hret
    | resp status body =>
      simp only [henv] at h0
      split at h0
      · cases hc : processChunks cfg ⟨rc, inc, [], ev⟩ body with
        | more st =>
          simp only [hc] at h0
          cases h0
          simp at hret
        | stopped st r =>
          simp only [hc] at h0
          cases r with
          | done =>
            cases h0
            simp at hret
          | errExhausted =>
            cases h0
            exact processChunks_errExhausted_events cfg body _ st hc
        | stopErr st m =>
          simp only [hc] at h0
          cases h0
          simp at hret
      · split at h0
        · split at h0
          · exact ih _ _ _ _ res h0 hret
          · cases h0
            simp at hret
        · cases h0
          simp at hret

/-- Claim C8 (confirmed): on every failing path of a send operation —
`Err` returns of `send_request` (429 exhausted, hard status, transport
failure) handled by the caller, and the in-stream error-exhausted path
where `send_request` itself sends the message — the complete event
sequence as delivered by `send_message` ends with one error message
immediately followed by `__STREAM_DONE__`, with nothing after it. -/
theorem c8_fatal_error_followed_by_done (cfg : Cfg) (env : Nat → Attempt)
    (h : (∃ e, (sendRequest cfg env).ret = .fatal e) ∨
      (sendRequest cfg env).ret = .okErrExhausted) :
    ∃ pre m, sendMessageEvents cfg env = pre ++ [m, doneSignal] := by
  cases h with
  | inl he =>
    obtain ⟨e, he⟩ := he
    refine ⟨(sendRequest cfg env).events, "错误: ".toList ++ displayApiError e, ?_⟩
    simp only [sendMessageEvents]
    rw [he]
  | inr he =>
    obtain ⟨pre, m, hev⟩ :=
      attemptLoop_errExhausted_events cfg env _ 0 0 [] [] (sendRequest cfg env) rfl he
    refine ⟨pre, m, ?_⟩
    simp only [sendMessageEvents]
    rw [he]
    exact hev

set_option maxRecDepth 40000 in
/-- Witness for `c8_fatal_error_followed_by_done`: an in-stream error frame
with retries disabled. -/
theorem c8_fatal_error_followed_by_done_witness :
    (sendRequest ⟨false, 0⟩ c8Env).ret = .okErrExhausted ∧
      ∃ pre m, sendMessageEvents ⟨false, 0⟩ c8Env = pre ++ [m, doneSignal] :=
  ⟨by decide, c8_fatal_error_followed_by_done ⟨false, 0⟩ c8Env (Or.inr (by decide))⟩

theorem char_valid_ranges (c : Char) :
    c.toNat < 0xD800 ∨ (0xE000 ≤ c.toNat ∧ c.toNat < 0x110000) := by
  have h := c.valid
  unfold UInt32.isValidChar Nat.isValidChar at h
  have e : c.toNat = c.val.toNat := rfl
  rcases h with h | ⟨h1, h2⟩
  · left; omega
  · right; omega

theorem contByte_cons (lo hi b : Nat) (rest : List Nat) (h : lo ≤ b ∧ b ≤ hi) :
    contByte lo hi (b :: rest) = some (b - 0x80, rest) := by
  simp [contByte, h]

theorem utf8DecodeAux_encodeChar (c : Char) (f : Nat) (bs : List Nat) :
    utf8DecodeAux (f + 1) (utf8EncodeChar c ++ bs) =
      (utf8DecodeAux f bs).map (fun cs => c :: cs) := by
  have hv := char_valid_ranges c
  have hofn : Char.ofNat c.toNat = c := Char.ofNat_toNat c
  have hv2 : c.toNat < 0x110000 := by omega
  unfold utf8EncodeChar
  by_cases h1 : c.toNat < 0x80
  · rw [if_pos h1]
    simp only [List.append_eq, List.cons_append, List.nil_append, List.singleton_append, utf8DecodeAux]
    rw [if_pos h1, hofn]
  · rw [if_neg h1]
    by_cases h2 : c.toNat < 0x800
    · rw [if_pos h2]
      simp only [List.append_eq, List.cons_append, List.nil_append, List.singleton_append, utf8DecodeAux]
      rw [if_neg (by omega), if_pos (show 0xC2 ≤ 0xC0 + c.toNat / 64 ∧ 0xC0 + c.toNat / 64 ≤ 0xDF by omega)]
      rw [contByte_cons _ _ _ _ (by omega)]
      simp only []
      rw [show 0x80 + c.toNat % 64 - 0x80 = c.toNat % 64 by omega]
      rw [show (0xC0 + c.toNat / 64 - 0xC0) * 64 + c.toNat % 64 = c.toNat by omega]
      rw [hofn]
    · rw [if_neg h2]
      by_cases h3 : c.toNat < 0x10000
      · rw [if_pos h3]
        simp only [List.append_eq, List.cons_append, List.nil_append, List.singleton_append, utf8DecodeAux]
        rw [if_neg (by omega), if_neg (by omega),
          if_pos (show 0xE0 ≤ 0xE0 + c.toNat / 4096 ∧ 0xE0 + c.toNat / 4096 ≤ 0xEF by omega)]
        rw [contByte_cons _ _ _ _ (by split_ifs <;> omega)]
        simp only []
        rw [contByte_cons _ _ _ _ (by omega)]
        simp only []
        rw [show (0xE0 + c.toNat / 4096 - 0xE0) * 4096 + (0x80 + c.toNat / 64 % 64 - 0x80) * 64 +
          (0x80 + c.toNat % 64 - 0x80) = c.toNat by omega]
        rw [hofn]
      · rw [if_neg h3]
        simp only [List.append_eq, List.cons_append, List.nil_append, List.singleton_append, utf8DecodeAux]
        rw [if_neg (by omega), if_neg (by omega), if_neg (by omega),
          if_pos (show 0xF0 ≤ 0xF0 + c.toNat / 262144 ∧ 0xF0 + c.toNat / 262144 ≤ 0xF4 by omega)]
        rw [contByte_cons _ _ _ _ (by split_ifs <;> omega)]
        simp only []
        rw [contByte_cons _ _ _ _ (by omega)]
        simp only []
        rw [contByte_cons _ _ _ _ (by omega)]
        simp only []
        rw [show (0xF0 + c.toNat / 262144 - 0xF0) * 262144 + (0x80 + c.toNat / 4096 % 64 - 0x80) * 4096 +
          (0x80 + c.toNat / 64 % 64 - 0x80) * 64 + (0x80 + c.toNat % 64 - 0x80) = c.toNat by omega]
        rw [hofn]

theorem utf8EncodeChar_length_pos (c : Char) : 1 ≤ (utf8EncodeChar c).length := by
  unfold utf8EncodeChar
  simp only []
  split_ifs <;> simp

theorem utf8Encode_length_ge (cs : List Char) : cs.length ≤ (utf8Encode cs).length := by
  induction cs with
  | nil => simp [utf8Encode]
  | cons c cs ih =>
    have := utf8EncodeChar_length_pos c
    simp only [utf8Encode, List.map_cons, List.flatten_cons, List.length_append,
      List.length_cons]
    simp only [utf8Encode] at ih
    omega

theorem utf8DecodeAux_encode (cs : List Char) :
    ∀ fuel, cs.length ≤ fuel → utf8DecodeAux fuel (utf8Encode cs) = some cs := by
  induction cs with
  | nil =>
    intro fuel _
    simp [utf8Encode, utf8DecodeAux]
  | cons c cs ih =>
    intro fuel hf
    obtain ⟨f, rfl⟩ : ∃ k, fuel = k + 1 := ⟨fuel - 1, by simp at hf; omega⟩
    have henc : utf8Encode (c :: cs) = utf8EncodeChar c ++ utf8Encode cs := by
      simp [utf8Encode]
    rw [henc, utf8DecodeAux_encodeChar, ih f (by simp at hf; omega)]
    rfl

/-- Encoding then decoding a string gives it back: every chunk obtained by
cutting a string at character boundaries passes `String::from_utf8`. -/
theorem utf8Decode_encode (cs : List Char) : utf8Decode (utf8Encode cs) = some cs :=
  utf8DecodeAux_encode cs _ (le_trans (utf8Encode_length_ge cs) (le_refl _))

/-! ### Chunk-partition invariance (claim C1, corrected form) -/

theorem stripCR_no_cr (l : List Char) (h : '\r' ∉ l) : stripCR l = l := by
  unfold stripCR
  split
  · rename_i t heq
    exfalso
    apply h
    rw [← List.mem_reverse, heq]
    exact List.mem_cons_self _ _
  · rfl

theorem rustLinesAux_append_lf (l t acc : List Char) (h : '\n' ∉ l) :
    rustLinesAux (l ++ '\n' :: t) acc =
      stripCR (acc.reverse ++ l) :: rustLinesAux t [] := by
  induction l generalizing acc with
  | nil =>
    simp [rustLinesAux]
  | cons c cs ih =>
    have hc : c ≠ '\n' := fun he => h (he ▸ List.mem_cons_self _ _)
    simp only [List.cons_append, rustLinesAux, if_neg hc, List.append_eq]
    rw [ih (c :: acc) (fun hm => h (List.mem_cons_of_mem _ hm))]
    simp

theorem rustLinesAux_no_lf (l acc : List Char) (h : '\n' ∉ l)
    (hne : acc.reverse ++ l ≠ []) :
    rustLinesAux l acc = [acc.reverse ++ l] := by
  induction l generalizing acc with
  | nil =>
    simp only [List.append_nil] at hne ⊢
    simp only [rustLinesAux]
    rw [if_neg]
    simpa using hne
  | cons c cs ih =>
    have hc : c ≠ '\n' := fun he => h (he ▸ List.mem_cons_self _ _)
    simp only [rustLinesAux, if_neg hc]
    rw [ih (c :: acc) (fun hm => h (List.mem_cons_of_mem _ hm)) (by simp)]
    simp

theorem rustLines_append_lf (l t : List Char) (h1 : '\n' ∉ l) (h2 : '\r' ∉ l) :
    rustLines (l ++ '\n' :: t) = l :: rustLines t := by
  unfold rustLines
  rw [rustLinesAux_append_lf l t [] h1]
  simp [stripCR_no_cr l h2]

theorem rustLines_no_lf (l : List Char) (h : '\n' ∉ l) (hne : l ≠ []) :
    rustLines l = [l] := by
  unfold rustLines
  rw [rustLinesAux_no_lf l [] h (by simpa using hne)]
  simp

theorem skipWs_append (s e : List Char) (h : skipWs s ≠ []) :
    skipWs (s ++ e) = skipWs s ++ e := by
  induction s with
  | nil => simp [skipWs] at h
  | cons c cs ih =>
    by_cases hw : isWsChar c
    · simp only [List.cons_append, skipWs, if_pos hw] at h ⊢
      exact ih h
    · simp only [List.cons_append, skipWs, if_neg hw]
      rfl

theorem skipWs_consume (s : List Char) : ∃ w, s = w ++ skipWs s := by
  induction s with
  | nil => exact ⟨[], rfl⟩
  | cons c cs ih =>
    simp only [skipWs]
    split
    · obtain ⟨w, hw⟩ := ih
      exact ⟨c :: w, by simp [← hw]⟩
    · exact ⟨[], rfl⟩

theorem takeDigits_consume (s : List Char) :
    s = (takeDigits s).1 ++ (takeDigits s).2 := by
  induction s with
  | nil => rfl
  | cons c cs ih =>
    simp only [takeDigits]
    split
    · simpa using ih
    · rfl

theorem takeDigits_append (s e : List Char) (h : (takeDigits s).2 ≠ []) :
    takeDigits (s ++ e) = ((takeDigits s).1, (takeDigits s).2 ++ e) := by
  induction s with
  | nil => simp [takeDigits] at h
  | cons c cs ih =>
    by_cases hd : isDigitChar c
    · simp only [List.cons_append, List.append_eq, takeDigits, if_pos hd] at h ⊢
      rw [ih h]
    · simp only [List.cons_append, List.append_eq, takeDigits, if_neg hd] at h ⊢

theorem expSign_consume (t : List Char) : t = (expSign t).1 ++ (expSign t).2 := by
  unfold expSign
  split <;> rfl

theorem expSign_other (c : Char) (w : List Char) (h1 : c ≠ '+') (h2 : c ≠ '-') :
    expSign (c :: w) = ([], c :: w) := by
  unfold expSign
  split
  · rename_i heq
    cases heq
    exact absurd rfl h1
  · rename_i heq
    cases heq
    exact absurd rfl h2
  · rfl

theorem expSign_append (t e : List Char) (h : (expSign t).2 ≠ []) :
    expSign (t ++ e) = ((expSign t).1, (expSign t).2 ++ e) := by
  cases t with
  | nil => exact absurd rfl h
  | cons c u =>
    by_cases h1 : c = '+'
    · subst h1; rfl
    · by_cases h2 : c = '-'
      · subst h2; rfl
      · rw [List.cons_append, expSign_other c u h1 h2, expSign_other c (u ++ e) h1 h2]
        rfl

theorem negSign_consume (s : List Char) : s = (negSign s).1 ++ (negSign s).2 := by
  unfold negSign
  split <;> rfl

theorem negSign_other (c : Char) (w : List Char) (h1 : c ≠ '-') :
    negSign (c :: w) = ([], c :: w) := by
  unfold negSign
  split
  · rename_i heq
    cases heq
    exact absurd rfl h1
  · rfl

theorem negSign_append (s e : List Char) (h : (negSign s).2 ≠ []) :
    negSign (s ++ e) = ((negSign s).1, (negSign s).2 ++ e) := by
  cases s with
  | nil => exact absurd rfl h
  | cons c u =>
    by_cases h1 : c = '-'
    · subst h1; rfl
    · rw [List.cons_append, negSign_other c u h1, negSign_other c (u ++ e) h1]
      rfl

theorem numFrac_dot (t : List Char) :
    numFrac ('.' :: t) =
      (match takeDigits t with
       | ([], _) => none
       | (d, r) => some ('.' :: d, r)) := rfl

theorem numFrac_other (c : Char) (t : List Char) (hc : c ≠ '.') :
    numFrac (c :: t) = some ([], c :: t) := by
  unfold numFrac
  split
  · rename_i heq
    cases heq
    exact absurd rfl hc
  · rfl

theorem numFrac_consume (s v r : List Char) (h : numFrac s = some (v, r)) :
    ∃ c, s = c ++ r := by
  cases s with
  | nil =>
    simp only [numFrac, Option.some.injEq, Prod.mk.injEq] at h
    obtain ⟨_, hr⟩ := h
    exact ⟨[], by simp [← hr]⟩
  | cons c t =>
    by_cases hc : c = '.'
    · subst hc
      rw [numFrac_dot] at h
      rcases htd : takeDigits t with ⟨d, r2⟩
      rw [htd] at h
      cases d with
      | nil => simp at h
      | cons d0 ds =>
        simp only [Option.some.injEq, Prod.mk.injEq] at h
        obtain ⟨_, hr⟩ := h
        subst hr
        have hcons := takeDigits_consume t
        rw [htd] at hcons
        exact ⟨'.' :: d0 :: ds, by simp [hcons]⟩
    · rw [numFrac_other c t hc, Option.some.injEq, Prod.mk.injEq] at h
      obtain ⟨_, hr⟩ := h
      exact ⟨[], by simp [← hr]⟩

theorem numFrac_append (s e v r : List Char) (h : numFrac s = some (v, r))
    (hr : r ≠ []) : numFrac (s ++ e) = some (v, r ++ e) := by
  cases s with
  | nil =>
    simp only [numFrac, Option.some.injEq, Prod.mk.injEq] at h
    obtain ⟨_, hrr⟩ := h
    exact absurd hrr.symm hr
  | cons c t =>
    by_cases hc : c = '.'
    · subst hc
      rw [numFrac_dot] at h
      rcases htd : takeDigits t with ⟨d, r2⟩
      rw [htd] at h
      cases d with
      | nil => simp at h
      | cons d0 ds =>
        simp only [Option.some.injEq, Prod.mk.injEq] at h
        obtain ⟨hv, hrr⟩ := h
        have hr2 : r2 ≠ [] := by rw [hrr]; exact hr
        have htd2 : takeDigits (t ++ e) = (d0 :: ds, r2 ++ e) := by
          have := takeDigits_append t e (by rw [htd]; simpa using hr2)
          rw [htd] at this
          simpa using this
        simp only [List.cons_append, numFrac_dot, htd2]
        rw [← hv, ← hrr]
    · rw [numFrac_other c t hc, Option.some.injEq, Prod.mk.injEq] at h
      obtain ⟨hv, hrr⟩ := h
      rw [List.cons_append, numFrac_other c (t ++ e) hc, ← hv, ← hrr]
      simp

theorem numExp_consume (s v r : List Char) (h : numExp s = some (v, r)) :
    ∃ c, s = c ++ r := by
  cases s with
  | nil =>
    simp only [numExp, Option.some.injEq, Prod.mk.injEq] at h
    obtain ⟨_, hr⟩ := h
    exact ⟨[], by simp [← hr]⟩
  | cons c t =>
    simp only [numExp] at h
    split at h
    · rcases htd : takeDigits (expSign t).2 with ⟨d, r2⟩
      rw [htd] at h
      cases d with
      | nil => simp at h
      | cons d0 ds =>
        simp only [Option.some.injEq, Prod.mk.injEq] at h
        obtain ⟨_, hrr⟩ := h
        have h1 := expSign_consume t
        have h2 := takeDigits_consume (expSign t).2
        rw [htd] at h2
        simp only at h2
        refine ⟨c :: ((expSign t).1 ++ d0 :: ds), ?_⟩
        rw [← hrr]
        conv_lhs => rw [h1, h2]
        simp
    · simp only [Option.some.injEq, Prod.mk.injEq] at h
      obtain ⟨_, hr⟩ := h
      exact ⟨[], by simp [← hr]⟩

theorem numExp_append (s e v r : List Char) (h : numExp s = some (v, r))
    (hr : r ≠ []) : numExp (s ++ e) = some (v, r ++ e) := by
  cases s with
  | nil =>
    simp only [numExp, Option.some.injEq, Prod.mk.injEq] at h
    obtain ⟨_, hrr⟩ := h
    exact absurd hrr.symm hr
  | cons c t =>
    simp only [numExp, List.cons_append] at h ⊢
    split at h
    · rename_i hce
      rw [if_pos hce]
      rcases htd : takeDigits (expSign t).2 with ⟨d, r2⟩
      rw [htd] at h
      cases d with
      | nil => simp at h
      | cons d0 ds =>
        simp only [Option.some.injEq, Prod.mk.injEq] at h
        obtain ⟨hv, hrr⟩ := h
        have hr2 : r2 ≠ [] := by rw [hrr]; exact hr
        have hes2 : (expSign t).2 ≠ [] := by
          intro he
          rw [he] at htd
          simp [takeDigits] at htd
        rw [expSign_append t e hes2]
        have htd2 : takeDigits ((expSign t).2 ++ e) = (d0 :: ds, r2 ++ e) := by
          have := takeDigits_append (expSign t).2 e (by rw [htd]; simpa using hr2)
          rw [htd] at this
          simpa using this
        simp only [htd2]
        rw [← hv, ← hrr]
    · rename_i hce
      rw [if_neg hce]
      simp only [Option.some.injEq, Prod.mk.injEq] at h
      obtain ⟨hv, hrr⟩ := h
      rw [← hv, ← hrr]
      simp

theorem parseNum_consume (s v r : List Char) (h : parseNum s = some (v, r)) :
    ∃ c, s = c ++ r := by
  unfold parseNum at h
  rcases hns : (negSign s).2 with _ | ⟨c, t⟩ <;> simp only [hns] at h
  · cases h
  · have hs := negSign_consume s
    rw [hns] at hs
    split at h
    · rcases hnf : numFrac t with _ | ⟨⟨f0, r1⟩⟩ <;> simp only [hnf] at h
      · cases h
      · rcases hne : numExp r1 with _ | ⟨⟨ex, r2⟩⟩ <;> simp only [hne] at h
        · cases h
        · simp only [Option.some.injEq, Prod.mk.injEq] at h
          obtain ⟨hv, hr⟩ := h
          obtain ⟨c1, hc1⟩ := numFrac_consume t f0 r1 hnf
          obtain ⟨c2, hc2⟩ := numExp_consume r1 ex r2 hne
          refine ⟨(negSign s).1 ++ c :: (c1 ++ c2), ?_⟩
          rw [← hr]
          conv_lhs => rw [hs, hc1, hc2]
          simp
    · split at h
      · rcases hnf : numFrac (takeDigits t).2 with _ | ⟨⟨f0, r1⟩⟩ <;> simp only [hnf] at h
        · cases h
        · rcases hne : numExp r1 with _ | ⟨⟨ex, r2⟩⟩ <;> simp only [hne] at h
          · cases h
          · simp only [Option.some.injEq, Prod.mk.injEq] at h
            obtain ⟨hv, hr⟩ := h
            obtain ⟨c1, hc1⟩ := numFrac_consume _ f0 r1 hnf
            obtain ⟨c2, hc2⟩ := numExp_consume r1 ex r2 hne
            have htc := takeDigits_consume t
            refine ⟨(negSign s).1 ++ c :: ((takeDigits t).1 ++ c1 ++ c2), ?_⟩
            rw [← hr]
            conv_lhs => rw [hs, htc, hc1, hc2]
            simp
      · cases h

theorem parseNum_append (s e v r : List Char) (h : parseNum s = some (v, r))
    (hr : r ≠ []) : parseNum (s ++ e) = some (v, r ++ e) := by
  unfold parseNum at h ⊢
  rcases hns : (negSign s).2 with _ | ⟨c, t⟩ <;> simp only [hns] at h
  · cases h
  · have hns2 : negSign (s ++ e) = ((negSign s).1, c :: (t ++ e)) := by
      have := negSign_append s e (by rw [hns]; simp)
      rw [this, hns]
      simp
    simp only [hns2]
    split at h
    · rename_i hc0
      rcases hnf : numFrac t with _ | ⟨⟨f0, r1⟩⟩ <;> simp only [hnf] at h
      · cases h
      · rcases hne : numExp r1 with _ | ⟨⟨ex, r2⟩⟩ <;> simp only [hne] at h
        · cases h
        · simp only [Option.some.injEq, Prod.mk.injEq] at h
          obtain ⟨hv, hrr⟩ := h
          have hr2 : r2 ≠ [] := by rw [hrr]; exact hr
          have hr1 : r1 ≠ [] := by
            obtain ⟨c2, hc2⟩ := numExp_consume r1 ex r2 hne
            rw [hc2]
            intro hx
            exact hr2 (List.append_eq_nil.mp hx).2
          simp only [if_pos hc0]
          rw [numFrac_append t e f0 r1 hnf hr1]
          simp only []
          rw [numExp_append r1 e ex r2 hne hr2]
          simp only [Option.some.injEq, Prod.mk.injEq]
          exact ⟨hv, by rw [← hrr]⟩
    · split at h
      · rename_i hc0 hcd
        rcases hnf : numFrac (takeDigits t).2 with _ | ⟨⟨f0, r1⟩⟩ <;> simp only [hnf] at h
        · cases h
        · rcases hne : numExp r1 with _ | ⟨⟨ex, r2⟩⟩ <;> simp only [hne] at h
          · cases h
          · simp only [Option.some.injEq, Prod.mk.injEq] at h
            obtain ⟨hv, hrr⟩ := h
            have hr2 : r2 ≠ [] := by rw [hrr]; exact hr
            have hr1 : r1 ≠ [] := by
              obtain ⟨c2, hc2⟩ := numExp_consume r1 ex r2 hne
              rw [hc2]
              intro hx
              exact hr2 (List.append_eq_nil.mp hx).2
            have htd2ne : (takeDigits t).2 ≠ [] := by
              obtain ⟨c1, hc1⟩ := numFrac_consume _ f0 r1 hnf
              rw [hc1]
              intro hx
              exact hr1 (List.append_eq_nil.mp hx).2
            rw [if_neg hc0, if_pos hcd]
            rw [takeDigits_append t e htd2ne]
            simp only []
            rw [numFrac_append _ e f0 r1 hnf hr1]
            simp only []
            rw [numExp_append r1 e ex r2 hne hr2]
            simp only [Option.some.injEq, Prod.mk.injEq]
            exact ⟨hv, by rw [← hrr]⟩
      · cases h





theorem parseStrBody_nil (f : Nat) : parseStrBody f [] = none := by
  cases f <;> rfl



theorem parseStrBody_spec : ∀ (f : Nat) (s cs r : List Char),
    parseStrBody f s = some (cs, r) →
      (∃ c, s = c ++ r) ∧ ∀ e, parseStrBody f (s ++ e) = some (cs, r ++ e) := by
  intro f
  induction f with
  | zero => intro s cs r h; cases h
  | succ f ih =>
    intro s cs r h
    match s with
    | [] => rw [parseStrBody_nil] at h; cases h
    | c :: rest =>
      unfold parseStrBody at h
      split at h
      · rename_i hq
        simp only [Option.some.injEq, Prod.mk.injEq] at h
        obtain ⟨hcs, hr⟩ := h
        subst hr
        refine ⟨⟨[c], rfl⟩, ?_⟩
        intro e
        simp only [List.cons_append, List.append_eq, parseStrBody, if_pos hq, ← hcs]
      · split at h
        · rename_i hq hbs
          cases rest with
          | nil => cases h
          | cons e2 r2 =>
            try simp only [] at h
            by_cases hu : e2 = 'u'
            · subst hu
              have hne : ¬('u' = '"' ∨ 'u' = '\\' ∨ 'u' = '/') := by decide
              have hnb : ('u' : Char) ≠ 'b' := by decide
              have hnf : ('u' : Char) ≠ 'f' := by decide
              have hnn : ('u' : Char) ≠ 'n' := by decide
              have hnr : ('u' : Char) ≠ 'r' := by decide
              have hnt : ('u' : Char) ≠ 't' := by decide
              rw [if_neg hne, if_neg hnb, if_neg hnf, if_neg hnn, if_neg hnr,
                if_neg hnt, if_pos rfl] at h
              match r2 with
              | [] => cases h
              | [x1] => cases h
              | [x1, x2] => cases h
              | [x1, x2, x3] => cases h
              | x1 :: x2 :: x3 :: x4 :: r3 =>
                try simp only [] at h
                rcases hh : hex4 x1 x2 x3 x4 with _ | n <;> rw [hh] at h <;>
                  try simp only [] at h
                · cases h
                · split at h
                  · cases h
                  · rename_i hsur
                    rcases hps : parseStrBody f r3 with _ | ⟨⟨cs2, rr⟩⟩
                    · rw [hps] at h; simp at h
                    rw [hps] at h
                    simp only [Option.map_some', Option.some.injEq, Prod.mk.injEq] at h
                    obtain ⟨hcs, hr⟩ := h
                    subst hr
                    obtain ⟨⟨cp, hcp⟩, hext⟩ := ih r3 cs2 rr hps
                    refine ⟨⟨c :: 'u' :: x1 :: x2 :: x3 :: x4 :: cp, by simp [hcp]⟩, ?_⟩
                    intro e
                    simp only [List.cons_append, List.append_eq, parseStrBody, if_neg hq, if_pos hbs,
                      if_neg hne, if_neg hnb, if_neg hnf, if_neg hnn, if_neg hnr,
                      if_neg hnt, if_pos rfl, hh, if_neg hsur, hext e,
                      Option.map_some', ← hcs]
                    simp
            · split at h
              · rename_i hesc
                rcases hps : parseStrBody f r2 with _ | ⟨⟨cs2, rr⟩⟩
                · rw [hps] at h; simp at h
                rw [hps] at h
                simp only [Option.map_some', Option.some.injEq, Prod.mk.injEq] at h
                obtain ⟨hcs, hr⟩ := h
                subst hr
                obtain ⟨⟨cp, hcp⟩, hext⟩ := ih r2 cs2 rr hps
                refine ⟨⟨c :: e2 :: cp, by simp [hcp]⟩, ?_⟩
                intro e
                simp only [List.cons_append, List.append_eq, parseStrBody, if_neg hq, if_pos hbs,
                  if_pos hesc, hext e, Option.map_some', ← hcs]
              · split at h
                · rename_i hne hb
                  rcases hps : parseStrBody f r2 with _ | ⟨⟨cs2, rr⟩⟩
                  · rw [hps] at h; simp at h
                  rw [hps] at h
                  simp only [Option.map_some', Option.some.injEq, Prod.mk.injEq] at h
                  obtain ⟨hcs, hr⟩ := h
                  subst hr
                  obtain ⟨⟨cp, hcp⟩, hext⟩ := ih r2 cs2 rr hps
                  refine ⟨⟨c :: e2 :: cp, by simp [hcp]⟩, ?_⟩
                  intro e
                  simp only [List.cons_append, List.append_eq, parseStrBody, if_neg hq, if_pos hbs,
                    if_neg hne, if_pos hb, hext e, Option.map_some', ← hcs]
                · split at h
                  · rename_i hne hnb hf2
                    rcases hps : parseStrBody f r2 with _ | ⟨⟨cs2, rr⟩⟩
                    · rw [hps] at h; simp at h
                    rw [hps] at h
                    simp only [Option.map_some', Option.some.injEq, Prod.mk.injEq] at h
                    obtain ⟨hcs, hr⟩ := h
                    subst hr
                    obtain ⟨⟨cp, hcp⟩, hext⟩ := ih r2 cs2 rr hps
                    refine ⟨⟨c :: e2 :: cp, by simp [hcp]⟩, ?_⟩
                    intro e
                    simp only [List.cons_append, List.append_eq, parseStrBody, if_neg hq, if_pos hbs,
                      if_neg hne, if_neg hnb, if_pos hf2, hext e, Option.map_some', ← hcs]
                  · split at h
                    · rename_i hne hnb hnf2 hn
                      rcases hps : parseStrBody f r2 with _ | ⟨⟨cs2, rr⟩⟩
                      · rw [hps] at h; simp at h
                      rw [hps] at h
                      simp only [Option.map_some', Option.some.injEq, Prod.mk.injEq] at h
                      obtain ⟨hcs, hr⟩ := h
                      subst hr
                      obtain ⟨⟨cp, hcp⟩, hext⟩ := ih r2 cs2 rr hps
                      refine ⟨⟨c :: e2 :: cp, by simp [hcp]⟩, ?_⟩
                      intro e
                      simp only [List.cons_append, List.append_eq, parseStrBody, if_neg hq, if_pos hbs,
                        if_neg hne, if_neg hnb, if_neg hnf2, if_pos hn, hext e,
                        Option.map_some', ← hcs]
                    · split at h
                      · rename_i hne hnb hnf2 hnn hr2
                        rcases hps : parseStrBody f r2 with _ | ⟨⟨cs2, rr⟩⟩
                        · rw [hps] at h; simp at h
                        rw [hps] at h
                        simp only [Option.map_some', Option.some.injEq, Prod.mk.injEq] at h
                        obtain ⟨hcs, hrr⟩ := h
                        subst hrr
                        obtain ⟨⟨cp, hcp⟩, hext⟩ := ih r2 cs2 rr hps
                        refine ⟨⟨c :: e2 :: cp, by simp [hcp]⟩, ?_⟩
                        intro e
                        simp only [List.cons_append, List.append_eq, parseStrBody, if_neg hq, if_pos hbs,
                          if_neg hne, if_neg hnb, if_neg hnf2, if_neg hnn, if_pos hr2,
                          hext e, Option.map_some', ← hcs]
                      · split at h
                        · rename_i hne hnb hnf2 hnn hnr ht
                          rcases hps : parseStrBody f r2 with _ | ⟨⟨cs2, rr⟩⟩
                          · rw [hps] at h; simp at h
                          rw [hps] at h
                          simp only [Option.map_some', Option.some.injEq, Prod.mk.injEq] at h
                          obtain ⟨hcs, hrr⟩ := h
                          subst hrr
                          obtain ⟨⟨cp, hcp⟩, hext⟩ := ih r2 cs2 rr hps
                          refine ⟨⟨c :: e2 :: cp, by simp [hcp]⟩, ?_⟩
                          intro e
                          simp only [List.cons_append, List.append_eq, parseStrBody, if_neg hq, if_pos hbs,
                            if_neg hne, if_neg hnb, if_neg hnf2, if_neg hnn, if_neg hnr,
                            if_pos ht, hext e, Option.map_some', ← hcs]
                        · cases h
        · split at h
          · cases h
          · rename_i hq hbs hctl
            rcases hps : parseStrBody f rest with _ | ⟨⟨cs2, rr⟩⟩
            · rw [hps] at h; simp at h
            rw [hps] at h
            simp only [Option.map_some', Option.some.injEq, Prod.mk.injEq] at h
            obtain ⟨hcs, hr⟩ := h
            subst hr
            obtain ⟨⟨cp, hcp⟩, hext⟩ := ih rest cs2 rr hps
            refine ⟨⟨c :: cp, by simp [hcp]⟩, ?_⟩
            intro e
            simp only [List.cons_append, List.append_eq, parseStrBody, if_neg hq, if_neg hbs,
              if_neg hctl, hext e, Option.map_some', ← hcs]


theorem parseNum_head (c : Char) (r v rest : List Char)
    (h : parseNum (c :: r) = some (v, rest)) : c = '-' ∨ isDigitChar c := by
  by_cases hc : c = '-'
  · exact Or.inl hc
  · right
    unfold parseNum at h
    rw [negSign_other c r hc] at h
    simp only [] at h
    split at h
    · rename_i hc0
      rw [hc0]
      decide
    · split at h
      · rename_i hd
        exact hd
      · cases h

theorem parseMembers_head : ∀ (f : Nat) (s : List Char) (acc : List ((List Char) × Json))
    (v : Json) (r : List Char), parseMembers f s acc = some (v, r) →
    ∃ rr, skipWs s = '"' :: rr := by
  intro f s acc v r h
  cases f with
  | zero => cases h
  | succ f =>
    unfold parseMembers at h
    split at h
    · rename_i rr heq
      exact ⟨rr, heq⟩
    · cases h

theorem parseVal_head (f : Nat) (s : List Char) (v : Json) (r : List Char)
    (h : parseVal f s = some (v, r)) :
    ∃ c rr, skipWs s = c :: rr ∧ c ≠ ']' ∧ c ≠ '\x7d' ∧ c ≠ ',' := by
  cases f with
  | zero => cases h
  | succ f =>
    unfold parseVal at h
    rcases hws : skipWs s with _ | ⟨c, r0⟩ <;> simp only [hws] at h
    · cases h
    refine ⟨c, r0, rfl, ?_⟩
    split at h
    · rename_i hc; subst hc; refine ⟨by decide, by decide, by decide⟩
    split at h
    · rename_i hc; subst hc; refine ⟨by decide, by decide, by decide⟩
    split at h
    · rename_i hc; subst hc; refine ⟨by decide, by decide, by decide⟩
    split at h
    · rename_i hc; subst hc; refine ⟨by decide, by decide, by decide⟩
    split at h
    · rename_i hc; subst hc; refine ⟨by decide, by decide, by decide⟩
    split at h
    · rename_i hc; subst hc; refine ⟨by decide, by decide, by decide⟩
    rcases hpn : parseNum (c :: r0) with _ | ⟨⟨raw, rest⟩⟩ <;> rw [hpn] at h
    · cases h
    · rcases parseNum_head c r0 raw rest hpn with hc | hd
      · subst hc; refine ⟨by decide, by decide, by decide⟩
      · refine ⟨?_, ?_, ?_⟩ <;> intro he <;> rw [he] at hd <;> exact absurd hd (by decide)

theorem parseElems_headc (f : Nat) (s : List Char) (acc : List Json) (v : Json)
    (r : List Char) (h : parseElems f s acc = some (v, r)) :
    ∃ c rr, skipWs s = c :: rr ∧ c ≠ ']' := by
  cases f with
  | zero => cases h
  | succ f =>
    unfold parseElems at h
    rcases hp : parseVal f s with _ | ⟨⟨v1, r1⟩⟩ <;> rw [hp] at h
    · cases h
    · obtain ⟨c, rr, hws, hne1, -, -⟩ := parseVal_head f s v1 r1 hp
      exact ⟨c, rr, hws, hne1⟩

theorem parser_spec : ∀ f : Nat,
    (∀ s v r, parseVal f s = some (v, r) →
      (∃ c, s = c ++ r) ∧
        ∀ e, (r ≠ [] ∨ v.notNum) → parseVal f (s ++ e) = some (v, r ++ e)) ∧
    (∀ s v r, parseObjStart f s = some (v, r) →
      (∃ c, s = c ++ r) ∧ ∀ e, parseObjStart f (s ++ e) = some (v, r ++ e)) ∧
    (∀ s acc v r, parseMembers f s acc = some (v, r) →
      (∃ c, s = c ++ r) ∧ ∀ e, parseMembers f (s ++ e) acc = some (v, r ++ e)) ∧
    (∀ s v r, parseArrStart f s = some (v, r) →
      (∃ c, s = c ++ r) ∧ ∀ e, parseArrStart f (s ++ e) = some (v, r ++ e)) ∧
    (∀ s acc v r, parseElems f s acc = some (v, r) →
      (∃ c, s = c ++ r) ∧ ∀ e, parseElems f (s ++ e) acc = some (v, r ++ e)) := by
  intro f
  induction f with
  | zero =>
    refine ⟨?_, ?_, ?_, ?_, ?_⟩ <;> intro s <;> intros <;>
      first
      | (rename_i h; cases h)
      | (rename_i x h; cases h)
  | succ f ih =>
    obtain ⟨ihv, iho, ihm, iha, ihe⟩ := ih
    refine ⟨?_, ?_, ?_, ?_, ?_⟩
    · -- parseVal
      intro s v r h
      unfold parseVal at h
      rcases hws : skipWs s with _ | ⟨c, r0⟩ <;> simp only [hws] at h
      · cases h
      obtain ⟨w, hw⟩ := skipWs_consume s
      rw [hws] at hw
      have hws2 : ∀ e, skipWs (s ++ e) = c :: (r0 ++ e) := fun e => by
        rw [skipWs_append s e (by rw [hws]; simp), hws]
        simp
      split at h
      · rename_i hc
        obtain ⟨⟨cp, hcp⟩, hext⟩ := iho r0 v r h
        refine ⟨⟨w ++ c :: cp, by rw [hw, hcp]; simp⟩, ?_⟩
        intro e _
        unfold parseVal
        rw [hws2 e]
        simp only []
        rw [if_pos hc]
        exact hext e
      split at h
      · rename_i hc1 hc2
        obtain ⟨⟨cp, hcp⟩, hext⟩ := iha r0 v r h
        refine ⟨⟨w ++ c :: cp, by rw [hw, hcp]; simp⟩, ?_⟩
        intro e _
        unfold parseVal
        rw [hws2 e]
        simp only []
        rw [if_neg hc1, if_pos hc2]
        exact hext e
      split at h
      · rename_i hc1 hc2 hc3
        rcases hps : parseStrBody f r0 with _ | ⟨⟨cs2, rr⟩⟩ <;> rw [hps] at h
        · cases h
        simp only [Option.map_some', Option.some.injEq, Prod.mk.injEq] at h
        obtain ⟨hv, hrr⟩ := h
        subst hrr
        obtain ⟨⟨cp, hcp⟩, hext⟩ := parseStrBody_spec f r0 cs2 rr hps
        refine ⟨⟨w ++ c :: cp, by rw [hw, hcp]; simp⟩, ?_⟩
        intro e _
        unfold parseVal
        rw [hws2 e]
        simp only []
        rw [if_neg hc1, if_neg hc2, if_pos hc3, hext e]
        simp [← hv]
      split at h
      · rename_i hc1 hc2 hc3 hc4
        split at h
        · rename_i rest
          simp only [Option.some.injEq, Prod.mk.injEq] at h
          obtain ⟨hv, hrr⟩ := h
          subst hrr
          refine ⟨⟨w ++ c :: 'r' :: 'u' :: 'e' :: [], by rw [hw]; simp⟩, ?_⟩
          intro e _
          unfold parseVal
          rw [hws2 e]
          simp only []
          rw [if_neg hc1, if_neg hc2, if_neg hc3, if_pos hc4]
          simp [← hv]
        · cases h
      split at h
      · rename_i hc1 hc2 hc3 hc4 hc5
        split at h
        · rename_i rest
          simp only [Option.some.injEq, Prod.mk.injEq] at h
          obtain ⟨hv, hrr⟩ := h
          subst hrr
          refine ⟨⟨w ++ c :: 'a' :: 'l' :: 's' :: 'e' :: [], by rw [hw]; simp⟩, ?_⟩
          intro e _
          unfold parseVal
          rw [hws2 e]
          simp only []
          rw [if_neg hc1, if_neg hc2, if_neg hc3, if_neg hc4, if_pos hc5]
          simp [← hv]
        · cases h
      split at h
      · rename_i hc1 hc2 hc3 hc4 hc5 hc6
        split at h
        · rename_i rest
          simp only [Option.some.injEq, Prod.mk.injEq] at h
          obtain ⟨hv, hrr⟩ := h
          subst hrr
          refine ⟨⟨w ++ c :: 'u' :: 'l' :: 'l' :: [], by rw [hw]; simp⟩, ?_⟩
          intro e _
          unfold parseVal
          rw [hws2 e]
          simp only []
          rw [if_neg hc1, if_neg hc2, if_neg hc3, if_neg hc4, if_neg hc5,
            if_pos hc6]
          simp [← hv]
        · cases h
      · rename_i hc1 hc2 hc3 hc4 hc5 hc6
        rcases hpn : parseNum (c :: r0) with _ | ⟨⟨raw, rest⟩⟩ <;> rw [hpn] at h
        · cases h
        · simp only [Option.some.injEq, Prod.mk.injEq] at h
          obtain ⟨hv, hrr⟩ := h
          subst hrr
          obtain ⟨cp, hcp⟩ := parseNum_consume (c :: r0) raw rest hpn
          refine ⟨⟨w ++ cp, by rw [hw]; rw [hcp]; simp⟩, ?_⟩
          intro e hre
          have hrne : rest ≠ [] := by
            rcases hre with hre | hre
            · exact hre
            · rw [← hv] at hre
              exact (hre : False).elim
          unfold parseVal
          rw [hws2 e]
          simp only []
          rw [if_neg hc1, if_neg hc2, if_neg hc3, if_neg hc4, if_neg hc5,
            if_neg hc6]
          have hpn2 : parseNum (c :: (r0 ++ e)) = some (raw, rest ++ e) := by
            rw [← List.cons_append]
            exact parseNum_append (c :: r0) e raw rest hpn hrne
          rw [hpn2]
          simp [← hv]
    · -- parseObjStart
      intro s v r h
      unfold parseObjStart at h
      split at h
      · rename_i rest heq
        simp only [Option.some.injEq, Prod.mk.injEq] at h
        obtain ⟨hv, hrr⟩ := h
        subst hrr
        obtain ⟨w, hw⟩ := skipWs_consume s
        rw [heq] at hw
        refine ⟨⟨w ++ ['\x7d'], by rw [hw]; simp⟩, ?_⟩
        intro e
        unfold parseObjStart
        rw [skipWs_append s e (by rw [heq]; simp), heq]
        simp [← hv]
      · obtain ⟨⟨cp, hcp⟩, hext⟩ := ihm s [] v r h
        obtain ⟨rr, hrr⟩ := parseMembers_head f s [] v r h
        refine ⟨⟨cp, hcp⟩, ?_⟩
        intro e
        have hws2 : skipWs (s ++ e) = '"' :: (rr ++ e) := by
          rw [skipWs_append s e (by rw [hrr]; simp), hrr]
          simp
        unfold parseObjStart
        split
        · rename_i rest2 heq2
          rw [hws2] at heq2
          simp at heq2
        · exact hext e
    · -- parseMembers
      intro s acc v r h
      unfold parseMembers at h
      split at h
      · rename_i r0 heq
        rcases hkey : parseStrBody f r0 with _ | ⟨⟨key, r2⟩⟩ <;> simp only [hkey] at h
        · cases h
        split at h
        · rename_i r3 heqc
          rcases hval : parseVal f r3 with _ | ⟨⟨v1, r4⟩⟩ <;> simp only [hval] at h
          · cases h
          obtain ⟨w0, hw0⟩ := skipWs_consume s
          rw [heq] at hw0
          obtain ⟨⟨c1, hc1⟩, hkext⟩ := parseStrBody_spec f r0 key r2 hkey
          obtain ⟨w2, hw2⟩ := skipWs_consume r2
          rw [heqc] at hw2
          obtain ⟨⟨c3, hc3⟩, hvext⟩ := ihv r3 v1 r4 hval
          split at h
          · rename_i r5 heq4
            obtain ⟨⟨c5, hc5⟩, hmext⟩ := ihm r5 (acc ++ [(key, v1)]) v r h
            obtain ⟨w4, hw4⟩ := skipWs_consume r4
            rw [heq4] at hw4
            refine ⟨⟨w0 ++ '"' :: c1 ++ w2 ++ ':' :: c3 ++ w4 ++ ',' :: c5, ?_⟩, ?_⟩
            · rw [hw0, hc1, hw2, hc3, hw4, hc5]
              simp
            intro e
            have h1 : skipWs (s ++ e) = '"' :: (r0 ++ e) := by
              rw [skipWs_append s e (by rw [heq]; simp), heq]; simp
            have h2 : skipWs (r2 ++ e) = ':' :: (r3 ++ e) := by
              rw [skipWs_append r2 e (by rw [heqc]; simp), heqc]; simp
            have h3 : parseVal f (r3 ++ e) = some (v1, r4 ++ e) :=
              hvext e (Or.inl (by rw [hw4]; simp))
            have h4 : skipWs (r4 ++ e) = ',' :: (r5 ++ e) := by
              rw [skipWs_append r4 e (by rw [heq4]; simp), heq4]; simp
            simp only [parseMembers, h1, hkext e, h2, h3, h4]
            exact hmext e
          · rename_i r5 heq4
            simp only [Option.some.injEq, Prod.mk.injEq] at h
            obtain ⟨hv, hrr⟩ := h
            subst hrr
            obtain ⟨w4, hw4⟩ := skipWs_consume r4
            rw [heq4] at hw4
            refine ⟨⟨w0 ++ '"' :: c1 ++ w2 ++ ':' :: c3 ++ w4 ++ ['\x7d'], ?_⟩, ?_⟩
            · rw [hw0, hc1, hw2, hc3, hw4]
              simp
            intro e
            have h1 : skipWs (s ++ e) = '"' :: (r0 ++ e) := by
              rw [skipWs_append s e (by rw [heq]; simp), heq]; simp
            have h2 : skipWs (r2 ++ e) = ':' :: (r3 ++ e) := by
              rw [skipWs_append r2 e (by rw [heqc]; simp), heqc]; simp
            have h3 : parseVal f (r3 ++ e) = some (v1, r4 ++ e) :=
              hvext e (Or.inl (by rw [hw4]; simp))
            have h4 : skipWs (r4 ++ e) = '\x7d' :: (r5 ++ e) := by
              rw [skipWs_append r4 e (by rw [heq4]; simp), heq4]; simp
            simp only [parseMembers, h1, hkext e, h2, h3, h4]
            simp [← hv]
          · cases h
        · cases h
      · cases h
    · -- parseArrStart
      intro s v r h
      unfold parseArrStart at h
      split at h
      · rename_i rest heq
        simp only [Option.some.injEq, Prod.mk.injEq] at h
        obtain ⟨hv, hrr⟩ := h
        subst hrr
        obtain ⟨w, hw⟩ := skipWs_consume s
        rw [heq] at hw
        refine ⟨⟨w ++ [']'], by rw [hw]; simp⟩, ?_⟩
        intro e
        unfold parseArrStart
        rw [skipWs_append s e (by rw [heq]; simp), heq]
        simp [← hv]
      · obtain ⟨⟨cp, hcp⟩, hext⟩ := ihe s [] v r h
        obtain ⟨c0, rr, hws0, hne1⟩ := parseElems_headc f s [] v r h
        refine ⟨⟨cp, hcp⟩, ?_⟩
        intro e
        have hws2 : skipWs (s ++ e) = c0 :: (rr ++ e) := by
          rw [skipWs_append s e (by rw [hws0]; simp), hws0]
          simp
        unfold parseArrStart
        split
        · rename_i rest2 heq2
          rw [hws2] at heq2
          obtain ⟨hcc, -⟩ := List.cons.inj heq2
          exact absurd hcc hne1
        · exact hext e
    · -- parseElems
      intro s acc v r h
      unfold parseElems at h
      rcases hpv : parseVal f s with _ | ⟨⟨v1, r1⟩⟩ <;> simp only [hpv] at h
      · cases h
      obtain ⟨⟨c1, hc1⟩, hvext⟩ := ihv s v1 r1 hpv
      split at h
      · rename_i r2 heq2
        obtain ⟨⟨c3, hc3⟩, heext⟩ := ihe r2 (acc ++ [v1]) v r h
        obtain ⟨w2, hw2⟩ := skipWs_consume r1
        rw [heq2] at hw2
        refine ⟨⟨c1 ++ w2 ++ ',' :: c3, ?_⟩, ?_⟩
        · rw [hc1, hw2, hc3]
          simp
        intro e
        have h1 : parseVal f (s ++ e) = some (v1, r1 ++ e) :=
          hvext e (Or.inl (by rw [hw2]; simp))
        have h2 : skipWs (r1 ++ e) = ',' :: (r2 ++ e) := by
          rw [skipWs_append r1 e (by rw [heq2]; simp), heq2]; simp
        simp only [parseElems, h1, h2]
        exact heext e
      · rename_i r2 heq2
        simp only [Option.some.injEq, Prod.mk.injEq] at h
        obtain ⟨hv, hrr⟩ := h
        subst hrr
        obtain ⟨w2, hw2⟩ := skipWs_consume r1
        rw [heq2] at hw2
        refine ⟨⟨c1 ++ w2 ++ [']'], ?_⟩, ?_⟩
        · rw [hc1, hw2]
          simp
        intro e
        have h1 : parseVal f (s ++ e) = some (v1, r1 ++ e) :=
          hvext e (Or.inl (by rw [hw2]; simp))
        have h2 : skipWs (r1 ++ e) = ']' :: (r2 ++ e) := by
          rw [skipWs_append r1 e (by rw [heq2]; simp), heq2]; simp
        simp only [parseElems, h1, h2]
        simp [← hv]
      · cases h


theorem parseStrBody_mono : ∀ (f : Nat) (s cs r : List Char),
    parseStrBody f s = some (cs, r) → parseStrBody (f + 1) s = some (cs, r) := by
  intro f
  induction f with
  | zero => intro s cs r h; cases h
  | succ f ih =>
    intro s cs r h
    match s with
    | [] => rw [parseStrBody_nil] at h; cases h
    | c :: rest =>
      unfold parseStrBody at h
      split at h
      · rename_i hq
        simp only [parseStrBody, if_pos hq, h]
      · split at h
        · rename_i hq hbs
          cases rest with
          | nil => cases h
          | cons e2 r2 =>
            try simp only [] at h
            by_cases hu : e2 = 'u'
            · subst hu
              have hne : ¬('u' = '"' ∨ 'u' = '\\' ∨ 'u' = '/') := by decide
              have hnb : ('u' : Char) ≠ 'b' := by decide
              have hnf : ('u' : Char) ≠ 'f' := by decide
              have hnn : ('u' : Char) ≠ 'n' := by decide
              have hnr : ('u' : Char) ≠ 'r' := by decide
              have hnt : ('u' : Char) ≠ 't' := by decide
              rw [if_neg hne, if_neg hnb, if_neg hnf, if_neg hnn, if_neg hnr,
                if_neg hnt, if_pos rfl] at h
              match r2 with
              | [] => cases h
              | [x1] => cases h
              | [x1, x2] => cases h
              | [x1, x2, x3] => cases h
              | x1 :: x2 :: x3 :: x4 :: r3 =>
                try simp only [] at h
                rcases hh : hex4 x1 x2 x3 x4 with _ | n <;> rw [hh] at h <;>
                  try simp only [] at h
                · cases h
                · split at h
                  · cases h
                  · rename_i hsur
                    rcases hps : parseStrBody f r3 with _ | ⟨⟨cs2, rr⟩⟩
                    · rw [hps] at h; simp at h
                    rw [hps] at h
                    simp only [parseStrBody, if_neg hq, if_pos hbs, if_neg hne,
                      if_neg hnb, if_neg hnf, if_neg hnn, if_neg hnr, if_neg hnt,
                      if_pos rfl, hh, if_neg hsur, ih r3 cs2 rr hps,
                      Option.map_some', if_true, h]
            · split at h
              · rename_i hesc
                rcases hps : parseStrBody f r2 with _ | ⟨⟨cs2, rr⟩⟩
                · rw [hps] at h; simp at h
                rw [hps] at h
                simp only [parseStrBody, if_neg hq, if_pos hbs, if_pos hesc,
                  ih r2 cs2 rr hps, Option.map_some', h]
              · split at h
                · rename_i hne hb
                  rcases hps : parseStrBody f r2 with _ | ⟨⟨cs2, rr⟩⟩
                  · rw [hps] at h; simp at h
                  rw [hps] at h
                  simp only [parseStrBody, if_neg hq, if_pos hbs, if_neg hne,
                    if_pos hb, ih r2 cs2 rr hps, Option.map_some', h]
                · split at h
                  · rename_i hne hnb hf2
                    rcases hps : parseStrBody f r2 with _ | ⟨⟨cs2, rr⟩⟩
                    · rw [hps] at h; simp at h
                    rw [hps] at h
                    simp only [parseStrBody, if_neg hq, if_pos hbs, if_neg hne,
                      if_neg hnb, if_pos hf2, ih r2 cs2 rr hps, Option.map_some', h]
                  · split at h
                    · rename_i hne hnb hnf2 hn
                      rcases hps : parseStrBody f r2 with _ | ⟨⟨cs2, rr⟩⟩
                      · rw [hps] at h; simp at h
                      rw [hps] at h
                      simp only [parseStrBody, if_neg hq, if_pos hbs, if_neg hne,
                        if_neg hnb, if_neg hnf2, if_pos hn, ih r2 cs2 rr hps,
                        Option.map_some', h]
                    · split at h
                      · rename_i hne hnb hnf2 hnn2 hr2
                        rcases hps : parseStrBody f r2 with _ | ⟨⟨cs2, rr⟩⟩
                        · rw [hps] at h; simp at h
                        rw [hps] at h
                        simp only [parseStrBody, if_neg hq, if_pos hbs, if_neg hne,
                          if_neg hnb, if_neg hnf2, if_neg hnn2, if_pos hr2,
                          ih r2 cs2 rr hps, Option.map_some', h]
                      · split at h
                        · rename_i hne hnb hnf2 hnn2 hnr2 ht2
                          rcases hps : parseStrBody f r2 with _ | ⟨⟨cs2, rr⟩⟩
                          · rw [hps] at h; simp at h
                          rw [hps] at h
                          simp only [parseStrBody, if_neg hq, if_pos hbs, if_neg hne,
                            if_neg hnb, if_neg hnf2, if_neg hnn2, if_neg hnr2,
                            if_pos ht2, ih r2 cs2 rr hps, Option.map_some', h]
                        · cases h
        · split at h
          · cases h
          · rename_i hq hbs hctl
            rcases hps : parseStrBody f rest with _ | ⟨⟨cs2, rr⟩⟩
            · rw [hps] at h; simp at h
            rw [hps] at h
            simp only [parseStrBody, if_neg hq, if_neg hbs, if_neg hctl,
              ih rest cs2 rr hps, Option.map_some', h]

theorem parser_mono : ∀ f : Nat,
    (∀ s v r, parseVal f s = some (v, r) → parseVal (f + 1) s = some (v, r)) ∧
    (∀ s v r, parseObjStart f s = some (v, r) → parseObjStart (f + 1) s = some (v, r)) ∧
    (∀ s acc v r, parseMembers f s acc = some (v, r) →
      parseMembers (f + 1) s acc = some (v, r)) ∧
    (∀ s v r, parseArrStart f s = some (v, r) → parseArrStart (f + 1) s = some (v, r)) ∧
    (∀ s acc v r, parseElems f s acc = some (v, r) →
      parseElems (f + 1) s acc = some (v, r)) := by
  intro f
  induction f with
  | zero =>
    refine ⟨?_, ?_, ?_, ?_, ?_⟩ <;> intro s <;> intros <;> rename_i h <;> cases h
  | succ f ih =>
    obtain ⟨ihv, iho, ihm, iha, ihe⟩ := ih
    refine ⟨?_, ?_, ?_, ?_, ?_⟩
    · -- parseVal
      intro s v r h
      unfold parseVal at h
      rcases hws : skipWs s with _ | ⟨c, r0⟩ <;> simp only [hws] at h
      · cases h
      unfold parseVal
      rw [hws]
      simp only []
      split at h
      · rename_i hc
        rw [if_pos hc]
        exact iho r0 v r h
      rename_i hc1
      rw [if_neg hc1]
      split at h
      · rename_i hc2
        rw [if_pos hc2]
        exact iha r0 v r h
      rename_i hc2
      rw [if_neg hc2]
      split at h
      · rename_i hc3
        rw [if_pos hc3]
        rcases hps : parseStrBody f r0 with _ | ⟨⟨cs2, rr⟩⟩ <;> rw [hps] at h
        · cases h
        rw [parseStrBody_mono f r0 cs2 rr hps]
        exact h
      rename_i hc3
      rw [if_neg hc3]
      split at h
      · rename_i hc4
        rw [if_pos hc4]
        exact h
      rename_i hc4
      rw [if_neg hc4]
      split at h
      · rename_i hc5
        rw [if_pos hc5]
        exact h
      rename_i hc5
      rw [if_neg hc5]
      split at h
      · rename_i hc6
        rw [if_pos hc6]
        exact h
      rename_i hc6
      rw [if_neg hc6]
      exact h
    · -- parseObjStart
      intro s v r h
      unfold parseObjStart at h
      split at h
      · rename_i rest heq
        unfold parseObjStart
        rw [heq]
        exact h
      · rename_i hne
        unfold parseObjStart
        split
        · rename_i rest heq
          exact absurd heq (hne rest)
        · exact ihm s [] v r h
    · -- parseMembers
      intro s acc v r h
      unfold parseMembers at h
      split at h
      · rename_i r0 heq
        rcases hkey : parseStrBody f r0 with _ | ⟨⟨key, r2⟩⟩ <;> simp only [hkey] at h
        · cases h
        split at h
        · rename_i r3 heqc
          rcases hval : parseVal f r3 with _ | ⟨⟨v1, r4⟩⟩ <;> simp only [hval] at h
          · cases h
          split at h
          · rename_i r5 heq4
            simp only [parseMembers, heq, parseStrBody_mono f r0 key r2 hkey, heqc,
              ihv r3 v1 r4 hval, heq4]
            exact ihm r5 (acc ++ [(key, v1)]) v r h
          · rename_i r5 heq4
            simp only [parseMembers, heq, parseStrBody_mono f r0 key r2 hkey, heqc,
              ihv r3 v1 r4 hval, heq4]
            exact h
          · cases h
        · cases h
      · cases h
    · -- parseArrStart
      intro s v r h
      unfold parseArrStart at h
      split at h
      · rename_i rest heq
        unfold parseArrStart
        rw [heq]
        exact h
      · rename_i hne
        unfold parseArrStart
        split
        · rename_i rest heq
          exact absurd heq (hne rest)
        · exact ihe s [] v r h
    · -- parseElems
      intro s acc v r h
      unfold parseElems at h
      rcases hpv : parseVal f s with _ | ⟨⟨v1, r1⟩⟩ <;> simp only [hpv] at h
      · cases h
      split at h
      · rename_i r2 heq2
        simp only [parseElems, ihv s v1 r1 hpv, heq2]
        exact ihe r2 (acc ++ [v1]) v r h
      · rename_i r2 heq2
        simp only [parseElems, ihv s v1 r1 hpv, heq2]
        exact h
      · cases h


theorem parseVal_mono_le (f g : Nat) (hfg : f ≤ g) (s : List Char) (v : Json)
    (r : List Char) (h : parseVal f s = some (v, r)) : parseVal g s = some (v, r) := by
  induction g with
  | zero =>
    have : f = 0 := Nat.le_zero.mp hfg
    subst this
    exact h
  | succ g ih =>
    rcases Nat.lt_or_ge f (g + 1) with hlt | hge
    · exact (parser_mono g).1 s v r (ih (Nat.lt_succ_iff.mp hlt))
    · have : f = g + 1 := Nat.le_antisymm hfg hge
      subst this
      exact h

theorem parseMembers_obj : ∀ (f : Nat) (s : List Char) (acc : List ((List Char) × Json))
    (v : Json) (r : List Char), parseMembers f s acc = some (v, r) →
    isJsonObj v = true := by
  intro f
  induction f with
  | zero => intro s acc v r h; cases h
  | succ f ih =>
    intro s acc v r h
    unfold parseMembers at h
    split at h
    · rename_i r0 heq
      rcases hkey : parseStrBody f r0 with _ | ⟨⟨key, r2⟩⟩ <;> simp only [hkey] at h
      · cases h
      split at h
      · rename_i r3 heqc
        rcases hval : parseVal f r3 with _ | ⟨⟨v1, r4⟩⟩ <;> simp only [hval] at h
        · cases h
        split at h
        · exact ih _ _ v r h
        · simp only [Option.some.injEq, Prod.mk.injEq] at h
          rw [← h.1]
          rfl
        · cases h
      · cases h
    · cases h

theorem parseObjStart_obj (f : Nat) (s : List Char) (v : Json) (r : List Char)
    (h : parseObjStart f s = some (v, r)) : isJsonObj v = true := by
  cases f with
  | zero => cases h
  | succ f =>
    unfold parseObjStart at h
    split at h
    · simp only [Option.some.injEq, Prod.mk.injEq] at h
      rw [← h.1]
      rfl
    · exact parseMembers_obj f s [] v r h

theorem parseElems_arr : ∀ (f : Nat) (s : List Char) (acc : List Json)
    (v : Json) (r : List Char), parseElems f s acc = some (v, r) →
    isJsonObj v = false := by
  intro f
  induction f with
  | zero => intro s acc v r h; cases h
  | succ f ih =>
    intro s acc v r h
    unfold parseElems at h
    rcases hpv : parseVal f s with _ | ⟨⟨v1, r1⟩⟩ <;> simp only [hpv] at h
    · cases h
    split at h
    · exact ih _ _ v r h
    · simp only [Option.some.injEq, Prod.mk.injEq] at h
      rw [← h.1]
      rfl
    · cases h

theorem parseArrStart_arr (f : Nat) (s : List Char) (v : Json) (r : List Char)
    (h : parseArrStart f s = some (v, r)) : isJsonObj v = false := by
  cases f with
  | zero => cases h
  | succ f =>
    unfold parseArrStart at h
    split at h
    · simp only [Option.some.injEq, Prod.mk.injEq] at h
      rw [← h.1]
      rfl
    · exact parseElems_arr f s [] v r h

theorem parseVal_obj_head (f : Nat) (s : List Char) (v : Json) (r : List Char)
    (h : parseVal f s = some (v, r)) (hobj : isJsonObj v = true) :
    ∃ rr, skipWs s = '\x7b' :: rr := by
  cases f with
  | zero => cases h
  | succ f =>
    unfold parseVal at h
    rcases hws : skipWs s with _ | ⟨c, r0⟩ <;> simp only [hws] at h
    · cases h
    split at h
    · rename_i hc
      subst hc
      refine ⟨r0, ?_⟩
      simp [hws]
    split at h
    · rw [parseArrStart_arr f r0 v r h] at hobj
      cases hobj
    split at h
    · rcases hps : parseStrBody f r0 with _ | ⟨⟨cs2, rr⟩⟩ <;> rw [hps] at h
      · cases h
      simp only [Option.map_some', Option.some.injEq, Prod.mk.injEq] at h
      rw [← h.1] at hobj
      cases hobj
    split at h
    · split at h
      · simp only [Option.some.injEq, Prod.mk.injEq] at h
        rw [← h.1] at hobj
        cases hobj
      · cases h
    split at h
    · split at h
      · simp only [Option.some.injEq, Prod.mk.injEq] at h
        rw [← h.1] at hobj
        cases hobj
      · cases h
    split at h
    · split at h
      · simp only [Option.some.injEq, Prod.mk.injEq] at h
        rw [← h.1] at hobj
        cases hobj
      · cases h
    · rcases hpn : parseNum (c :: r0) with _ | ⟨⟨raw, rest⟩⟩ <;> rw [hpn] at h
      · cases h
      · simp only [Option.some.injEq, Prod.mk.injEq] at h
        rw [← h.1] at hobj
        cases hobj

theorem wfBody_parse (b : List Char) (h : wfBody b = true) :
    ∃ v, parseVal (jsonFuel b.length) b = some (v, []) ∧ isJsonObj v = true ∧
      '\n' ∉ b ∧ '\r' ∉ b := by
  unfold wfBody at h
  simp only [Bool.and_eq_true, Bool.not_eq_true'] at h
  obtain ⟨⟨h1, h2⟩, h3⟩ := h
  split at h1
  · rename_i v heq
    exact ⟨v, heq, h1, by simpa using h2, by simpa using h3⟩
  · cases h1

theorem wfBody_head (b : List Char) (h : wfBody b = true) :
    ∃ rr, skipWs b = '\x7b' :: rr := by
  obtain ⟨v, hp, hobj, -, -⟩ := wfBody_parse b h
  exact parseVal_obj_head _ b v [] hp hobj

theorem parseVal_head_obj (f : Nat) (s : List Char) (v : Json) (r rr : List Char)
    (h : parseVal f s = some (v, r)) (hws : skipWs s = '\x7b' :: rr) :
    isJsonObj v = true := by
  cases f with
  | zero => cases h
  | succ f =>
    unfold parseVal at h
    simp only [hws, if_true] at h
    exact parseObjStart_obj f rr v r h

theorem isJsonObj_notNum (v : Json) (h : isJsonObj v = true) : v.notNum := by
  cases v <;> simp [isJsonObj] at h ⊢ <;> trivial

theorem parseVal_ws_ne (f : Nat) (s : List Char) (v : Json) (r : List Char)
    (h : parseVal f s = some (v, r)) : skipWs s ≠ [] := by
  cases f with
  | zero => cases h
  | succ f =>
    unfold parseVal at h
    rcases hws : skipWs s with _ | ⟨c, r0⟩ <;> simp only [hws] at h
    · cases h
    · simp

theorem parseJson_prefix_none (b p : List Char) (hwf : wfBody b = true)
    (hpre : p <+: b) (hne : p ≠ b) : parseJson p = none := by
  obtain ⟨e, he⟩ := hpre
  have hene : e ≠ [] := by
    intro h0
    rw [h0, List.append_nil] at he
    exact hne he
  have hval : parseVal (jsonFuel p.length) p = none := by
    rcases hp : parseVal (jsonFuel p.length) p with _ | ⟨⟨v1, rest⟩⟩
    · rfl
    exfalso
    obtain ⟨v, hb, hobj, -, -⟩ := wfBody_parse b hwf
    obtain ⟨rr, hhead⟩ := parseVal_obj_head _ b v [] hb hobj
    have hwsp := parseVal_ws_ne _ p v1 rest hp
    rcases hws : skipWs p with _ | ⟨c, rr2⟩
    · exact hwsp hws
    have hwsB : skipWs b = c :: (rr2 ++ e) := by
      rw [← he, skipWs_append p e (by rw [hws]; simp), hws]
      simp
    have hc : c = '\x7b' := (List.cons.inj (hwsB.symm.trans hhead)).1
    subst hc
    have hobj1 : isJsonObj v1 = true :=
      parseVal_head_obj _ p v1 rest rr2 hp hws
    have hnn := isJsonObj_notNum v1 hobj1
    have hext := ((parser_spec (jsonFuel p.length)).1 p v1 rest hp).2 e (Or.inr hnn)
    rw [he] at hext
    have hlen : p.length ≤ b.length := by
      rw [← he]
      simp
    have hF : jsonFuel p.length ≤ jsonFuel b.length := by
      unfold jsonFuel
      omega
    have hb2 := parseVal_mono_le _ _ hF b v1 (rest ++ e) hext
    have hcomb := hb.symm.trans hb2
    simp only [Option.some.injEq, Prod.mk.injEq] at hcomb
    exact hene (List.append_eq_nil.mp hcomb.2.symm).2
  unfold parseJson
  rw [hval]


theorem doneBody_prefix_none (p : List Char) (hpre : p <+: doneBody)
    (hne : p ≠ doneBody) : parseJson p = none := by
  have h6 : p.length ≤ 6 := by
    have := hpre.length_le
    simpa [doneBody] using this
  have hne6 : p.length ≠ 6 := by
    intro hl
    exact hne (List.IsPrefix.eq_of_length hpre (by simp [doneBody, hl]))
  have hp : p = doneBody.take p.length := List.prefix_iff_eq_take.mp hpre
  have hlt : p.length < 6 := lt_of_le_of_ne h6 hne6
  rcases hn : p.length with _ | _ | _ | _ | _ | _ | n <;> rw [hn] at hp <;> rw [hp] <;>
    first
    | rfl
    | (exfalso; omega)

theorem leadsWith_length (pat s : List Char) (h : leadsWith pat s = true) :
    pat.length ≤ s.length := by
  induction pat generalizing s with
  | nil => simp
  | cons a as ih =>
    cases s with
    | nil => cases h
    | cons b bs =>
      simp only [leadsWith, Bool.and_eq_true] at h
      have := ih bs h.2
      simp only [List.length_cons]
      omega

theorem findSub_length (s pat : List Char) (i : Nat) (h : findSub s pat = some i) :
    pat.length ≤ s.length := by
  induction s generalizing i with
  | nil =>
    unfold findSub at h
    split at h
    · rename_i hl
      exact leadsWith_length pat [] hl
    · cases h
  | cons c t ih =>
    unfold findSub at h
    split at h
    · rename_i hl
      exact leadsWith_length pat (c :: t) hl
    · simp only [] at h
      rcases hf : findSub t pat with _ | j <;> rw [hf] at h
      · cases h
      · have := ih j hf
        simp only [List.length_cons]
        omega

theorem containsSub_length (s pat : List Char) (h : containsSub s pat = true) :
    pat.length ≤ s.length := by
  unfold containsSub at h
  rcases hf : findSub s pat with _ | i <;> rw [hf] at h
  · cases h
  · exact findSub_length s pat i hf

theorem wfLine_ne_nil (b : List Char) (hb : WfLine b) : b ≠ [] := by
  rcases hb with hb | hb
  · intro h0
    rw [h0] at hb
    exact absurd hb (by decide)
  · rw [hb]
    decide

theorem processLine_neutral (cfg : Cfg) (st : EngSt) (line b p q : List Char)
    (hb : WfLine b) (hpq : p ++ q = fullLine b) (hq : q ≠ [])
    (hinc : st.incomplete ++ line = p) :
    processLine cfg st line = .next { st with incomplete := p } := by
  simp only [processLine, hinc]
  by_cases hcont : containsSub p dataMarker
  swap
  · rw [if_neg hcont]
  rw [if_pos hcont]
  have hp6 : (6 : Nat) ≤ p.length := containsSub_length p dataMarker hcont
  have hsplit : ∃ pp, p = dataMarker ++ pp ∧ pp ++ q = b := by
    unfold fullLine at hpq
    rcases List.append_eq_append_iff.mp hpq with ⟨a2, ha1, ha2⟩ | ⟨c2, hc1, hc2⟩
    · have hlen := congrArg List.length ha1
      simp [dataMarker] at hlen
      have ha2nil : a2 = [] := by
        have : a2.length = 0 := by omega
        exact List.length_eq_zero.mp this
      subst ha2nil
      refine ⟨[], by simpa using ha1.symm, ?_⟩
      simpa using ha2
    · exact ⟨c2, hc1, hc2.symm⟩
  obtain ⟨pp, hppp, hppb⟩ := hsplit
  have hfind : findSub p dataMarker = some 0 := by
    rw [hppp]
    exact findSub_zero dataMarker pp
  rw [hfind]
  simp only [Option.getD_some]
  have hdrop : p.drop (0 + 6) = pp := by
    rw [hppp]
    have h6 : dataMarker.length = 6 := rfl
    simp [← h6]
  rw [hdrop]
  have hppb_pre : pp <+: b := ⟨q, hppb⟩
  have hppne : pp ≠ b := by
    intro h0
    rw [h0] at hppb
    have h2 := congrArg List.length hppb
    simp at h2
    exact hq h2
  have hnd : pp ≠ doneBody := by
    rcases hb with hwf | hdone
    · intro h0
      obtain ⟨rr, hh⟩ := wfBody_head b hwf
      rw [← hppb, h0] at hh
      simp [doneBody, skipWs, isWsChar] at hh
    · rw [hdone] at hppne
      exact hppne
  have hpj : parseJson pp = none := by
    rcases hb with hwf | hdone
    · exact parseJson_prefix_none b pp hwf hppb_pre hppne
    · subst hdone
      exact doneBody_prefix_none pp hppb_pre hnd
  rw [if_neg hnd, hpj]

theorem processLine_full_next (cfg : Cfg) (st : EngSt) (b : List Char)
    (hb : WfLine b) (hinc : st.incomplete = []) :
    ∀ st1, processLine cfg st (fullLine b) = .next st1 → st1.incomplete = [] := by
  intro st1 h
  simp only [processLine, hinc, List.nil_append] at h
  have hcont : containsSub (fullLine b) dataMarker = true := by
    unfold containsSub fullLine
    rw [findSub_zero]
    rfl
  rw [if_pos hcont] at h
  unfold fullLine at h
  rw [findSub_zero] at h
  simp only [Option.getD_some] at h
  have hdrop : (dataMarker ++ b).drop (0 + 6) = b := by
    have h6 : dataMarker.length = 6 := rfl
    simp [← h6]
  rw [hdrop] at h
  rcases hb with hwf | hdone
  · have hbd : b ≠ doneBody := by
      intro h0
      rw [h0] at hwf
      exact absurd hwf (by decide)
    rw [if_neg hbd] at h
    obtain ⟨v, hp, hobj, -, -⟩ := wfBody_parse b hwf
    have hpj : parseJson b = some v := by
      unfold parseJson
      rw [hp]
      rfl
    rw [hpj] at h
    simp only [] at h
    rcases hge : v.get ("error".toList) with _ | errVal <;> simp only [hge] at h
    · rcases hcnt : (((v.strIdx ("choices".toList)).natIdx 0).strIdx
          ("delta".toList)).strIdx ("content".toList) |>.asStr with _ | content <;>
        simp only [hcnt] at h
      · simp only [StepRes.next.injEq] at h
        rw [← h]
      · simp only [StepRes.next.injEq] at h
        rw [← h]
    · split at h
      · simp only [StepRes.next.injEq] at h
        rw [← h]
      · cases h
  · rw [if_pos hdone] at h
    cases h

theorem processLine_shift (cfg : Cfg) (rc : Nat) (p cur : List Char)
    (ev : List (List Char)) (l : List Char) :
    processLine cfg ⟨rc, p, cur, ev⟩ l = processLine cfg ⟨rc, [], cur, ev⟩ (p ++ l) := rfl

theorem processLine_empty (cfg : Cfg) (st : EngSt) (hinc : st.incomplete = []) :
    processLine cfg st [] = .next st := by
  obtain ⟨rc, inc0, cur, ev⟩ := st
  simp only at hinc
  subst hinc
  rfl

theorem processLines_append (cfg : Cfg) (st : EngSt) (ls1 ls2 : List (List Char)) :
    processLines cfg st (ls1 ++ ls2) =
      match processLines cfg st ls1 with
      | .next st1 => processLines cfg st1 ls2
      | .stop st1 r => .stop st1 r := by
  induction ls1 generalizing st with
  | nil => rfl
  | cons l ls ih =>
    simp only [List.cons_append, processLines]
    rcases hpl : processLine cfg st l with st1 | ⟨st1, r⟩
    · exact ih st1
    · rfl


theorem startPos_rem (bs : List (List Char)) : remText (startPos bs) = streamText bs := by
  cases bs <;> rfl

theorem startPos_inc (bs : List (List Char)) : incOf (startPos bs) = [] := by
  cases bs <;> rfl

theorem startPos_ok (bs : List (List Char)) (h : ∀ b ∈ bs, WfLine b) :
    posOk (startPos bs) := by
  cases bs with
  | nil => trivial
  | cons b rest =>
    refine ⟨h b (by simp), fun x hx => h x (by simp [hx]), by simp, ?_⟩
    simp [fullLine, dataMarker]

theorem fullLine_no_ctrl (b : List Char) (hb : WfLine b) :
    '\n' ∉ fullLine b ∧ '\r' ∉ fullLine b := by
  rcases hb with hwf | hdone
  · obtain ⟨-, -, -, h2, h3⟩ := wfBody_parse b hwf
    constructor <;> intro hx <;> rw [fullLine] at hx <;>
      rcases List.mem_append.mp hx with hx | hx
    · exact absurd hx (by decide)
    · exact h2 hx
    · exact absurd hx (by decide)
    · exact h3 hx
  · subst hdone
    constructor <;> decide

theorem il (cfg : Cfg) : ∀ (n : Nat) (t : List Char), t.length ≤ n →
    ∀ pos (st : EngSt) rem, posOk pos → st.incomplete = incOf pos →
      remText pos = t ++ rem →
      (processLines cfg st (rustLines (t ++ rem)) =
        match processLines cfg st (rustLines t) with
        | .next st1 => processLines cfg st1 (rustLines rem)
        | .stop st1 r => .stop st1 r) ∧
      (∀ st1, processLines cfg st (rustLines t) = .next st1 →
        ∃ pos2, posOk pos2 ∧ remText pos2 = rem ∧ st1.incomplete = incOf pos2) := by
  intro n
  induction n with
  | zero =>
    intro t ht pos st rem hpos hinc hrem
    have ht0 : t = [] := List.length_eq_zero.mp (Nat.le_zero.mp ht)
    subst ht0
    refine ⟨by simp [rustLines, rustLinesAux, processLines], ?_⟩
    intro st1 h1
    simp [rustLines, rustLinesAux, processLines] at h1
    exact ⟨pos, hpos, by simpa using hrem, by rw [← h1]; exact hinc⟩
  | succ n ih =>
    intro t ht pos st rem hpos hinc hrem
    by_cases htne : t = []
    · subst htne
      refine ⟨by simp [rustLines, rustLinesAux, processLines], ?_⟩
      intro st1 h1
      simp [rustLines, rustLinesAux, processLines] at h1
      exact ⟨pos, hpos, by simpa using hrem, by rw [← h1]; exact hinc⟩
    cases pos with
    | atEnd =>
      exfalso
      simp only [remText] at hrem
      exact htne (List.append_eq_nil.mp hrem.symm).1
    | afterNl rest =>
      simp only [remText] at hrem
      simp only [incOf] at hinc
      cases t with
      | nil => exact absurd rfl htne
      | cons c t2 =>
        simp only [List.cons_append] at hrem
        obtain ⟨hc, hS⟩ := List.cons.inj hrem
        subst hc
        have hrl : rustLines ('\n' :: t2) = [] :: rustLines t2 := by
          have := rustLines_append_lf [] t2 (by simp) (by simp)
          simpa using this
        have hrl2 : rustLines ('\n' :: (t2 ++ rem)) = [] :: rustLines (t2 ++ rem) := by
          have := rustLines_append_lf [] (t2 ++ rem) (by simp) (by simp)
          simpa using this
        have hemp : processLine cfg st [] = .next st := processLine_empty cfg st hinc
        have hih := ih t2 (by simp at ht; omega) (startPos rest) st rem
          (startPos_ok rest hpos) (by rw [hinc, startPos_inc])
          (by rw [startPos_rem, ← hS])
        constructor
        · rw [List.cons_append, hrl2, hrl]
          simp only [processLines, hemp]
          exact hih.1
        · intro st1 h1
          rw [hrl] at h1
          simp only [processLines, hemp] at h1
          exact hih.2 st1 h1
    | mid b rest p q =>
      obtain ⟨hwb, hwrest, hpq, hqne⟩ := hpos
      simp only [remText] at hrem
      simp only [incOf] at hinc
      obtain ⟨hnl, hncr⟩ := fullLine_no_ctrl b hwb
      have hnlq : '\n' ∉ q := fun hx => hnl (by rw [← hpq]; exact List.mem_append_right p hx)
      have hncrq : '\r' ∉ q := fun hx => hncr (by rw [← hpq]; exact List.mem_append_right p hx)
      obtain ⟨rc, inc0, cur, ev⟩ := st
      simp only [] at hinc
      subst inc0
      rcases List.append_eq_append_iff.mp hrem with ⟨a2, hq1, hq2⟩ | ⟨c2, ht1, ht2⟩
      · -- t = q ++ a2, '\n' :: streamText rest = a2 ++ rem
        by_cases ha2e : a2 = []
        · -- t = q exactly; rem = '\n' :: streamText rest
          subst ha2e
          rw [List.append_nil] at hq1
          subst t
          simp only [List.nil_append] at hq2
          have hrlt : rustLines q = [q] := rustLines_no_lf q hnlq hqne
          have hfull : processLine cfg ⟨rc, p, cur, ev⟩ q =
              processLine cfg ⟨rc, [], cur, ev⟩ (fullLine b) := by
            rw [processLine_shift, hpq]
          have hrem2 : rustLines rem = [] :: rustLines (streamText rest) := by
            rw [← hq2]
            have := rustLines_append_lf [] (streamText rest) (by simp) (by simp)
            simpa using this
          have hql : rustLines (q ++ rem) = q :: rustLines (streamText rest) := by
            rw [← hq2]
            exact rustLines_append_lf q (streamText rest) hnlq hncrq
          rcases hres : processLine cfg ⟨rc, p, cur, ev⟩ q with st1 | ⟨st1, r⟩
          · have hst1 : st1.incomplete = [] := by
              refine processLine_full_next cfg ⟨rc, [], cur, ev⟩ b hwb rfl st1 ?_
              rw [← hfull, hres]
            constructor
            · rw [hql]
              simp only [processLines, hres, hrlt]
              rw [hrem2]
              simp only [processLines, processLine_empty cfg st1 hst1]
            · intro st2 h2
              rw [hrlt] at h2
              simp only [processLines, hres] at h2
              cases h2
              exact ⟨.afterNl rest, hwrest, by simp [remText, hq2], hst1⟩
          · constructor
            · rw [hql]
              simp only [processLines, hres, hrlt]
            · intro st2 h2
              rw [hrlt] at h2
              simp only [processLines, hres] at h2
              exact absurd h2 (by simp)
        · -- t = q ++ '\n' :: t2
          rcases a2 with _ | ⟨ac, t2⟩
          · exact absurd rfl ha2e
          simp only [List.cons_append] at hq2
          have hacn : '\n' = ac := (List.cons.inj hq2).1
          have hS : streamText rest = t2 ++ rem := (List.cons.inj hq2).2
          subst hacn
          subst t
          have hrlt : rustLines (q ++ '\n' :: t2) = q :: rustLines t2 :=
            rustLines_append_lf q t2 hnlq hncrq
          have hrlt2 : rustLines ((q ++ '\n' :: t2) ++ rem) =
              q :: rustLines (t2 ++ rem) := by
            rw [List.append_assoc, List.cons_append]
            exact rustLines_append_lf q (t2 ++ rem) hnlq hncrq
          have hfull : processLine cfg ⟨rc, p, cur, ev⟩ q =
              processLine cfg ⟨rc, [], cur, ev⟩ (fullLine b) := by
            rw [processLine_shift, hpq]
          rcases hres : processLine cfg ⟨rc, p, cur, ev⟩ q with st1 | ⟨st1, r⟩
          · have hst1 : st1.incomplete = [] := by
              refine processLine_full_next cfg ⟨rc, [], cur, ev⟩ b hwb rfl st1 ?_
              rw [← hfull, hres]
            have hih := ih t2 (by simp at ht; omega) (startPos rest) st1 rem
              (startPos_ok rest hwrest) (by rw [hst1, startPos_inc])
              (by rw [startPos_rem, ← hS])
            constructor
            · rw [hrlt2]
              simp only [processLines, hres]
              rw [hrlt]
              simp only [processLines, hres]
              exact hih.1
            · intro st2 h2
              rw [hrlt] at h2
              simp only [processLines, hres] at h2
              exact hih.2 st2 h2
          · constructor
            · rw [hrlt2]
              simp only [processLines, hres]
              rw [hrlt]
              simp only [processLines, hres]
            · intro st2 h2
              rw [hrlt] at h2
              simp only [processLines, hres] at h2
              exact absurd h2 (by simp)
      · -- q = t ++ c2, rem = c2 ++ '\n' :: streamText rest
        have hnlt : '\n' ∉ t := fun hx => hnlq (by rw [ht1]; exact List.mem_append_left c2 hx)
        have hrlt : rustLines t = [t] := rustLines_no_lf t hnlt htne
        by_cases hc2e : c2 = []
        · -- t = q exactly (dual decomposition)
          subst hc2e
          rw [List.append_nil] at ht1
          subst q
          simp only [List.nil_append] at ht2
          have hfull : processLine cfg ⟨rc, p, cur, ev⟩ t =
              processLine cfg ⟨rc, [], cur, ev⟩ (fullLine b) := by
            rw [processLine_shift, hpq]
          have hrem2 : rustLines rem = [] :: rustLines (streamText rest) := by
            rw [ht2]
            have := rustLines_append_lf [] (streamText rest) (by simp) (by simp)
            simpa using this
          have hql : rustLines (t ++ rem) = t :: rustLines (streamText rest) := by
            rw [ht2]
            exact rustLines_append_lf t (streamText rest) hnlq hncrq
          rcases hres : processLine cfg ⟨rc, p, cur, ev⟩ t with st1 | ⟨st1, r⟩
          · have hst1 : st1.incomplete = [] := by
              refine processLine_full_next cfg ⟨rc, [], cur, ev⟩ b hwb rfl st1 ?_
              rw [← hfull, hres]
            constructor
            · rw [hql]
              simp only [processLines, hres, hrlt]
              rw [hrem2]
              simp only [processLines, processLine_empty cfg st1 hst1]
            · intro st2 h2
              rw [hrlt] at h2
              simp only [processLines, hres] at h2
              cases h2
              exact ⟨.afterNl rest, hwrest, by simp [remText, ht2], hst1⟩
          · constructor
            · rw [hql]
              simp only [processLines, hres, hrlt]
            · intro st2 h2
              rw [hrlt] at h2
              simp only [processLines, hres] at h2
              exact absurd h2 (by simp)
        · -- t a proper prefix of the line
          have hc2ne : c2 ≠ [] := hc2e
          have hneut : processLine cfg ⟨rc, p, cur, ev⟩ t =
              .next ⟨rc, p ++ t, cur, ev⟩ := by
            refine processLine_neutral cfg ⟨rc, p, cur, ev⟩ t b (p ++ t) c2 hwb ?_ hc2ne rfl
            rw [List.append_assoc, ← ht1, hpq]
          have hqrem : t ++ rem = q ++ '\n' :: streamText rest := by
            rw [ht2, ht1]
            simp
          have hql : rustLines (t ++ rem) = q :: rustLines (streamText rest) := by
            rw [hqrem]
            exact rustLines_append_lf q (streamText rest) hnlq hncrq
          have hrem2 : rustLines rem = c2 :: rustLines (streamText rest) := by
            rw [ht2]
            refine rustLines_append_lf c2 (streamText rest) ?_ ?_
            · exact fun hx => hnlq (by rw [ht1]; exact List.mem_append_right t hx)
            · exact fun hx => hncrq (by rw [ht1]; exact List.mem_append_right t hx)
          have hstepq : processLine cfg ⟨rc, p, cur, ev⟩ q =
              processLine cfg ⟨rc, p ++ t, cur, ev⟩ c2 := by
            rw [processLine_shift cfg rc p cur ev q,
              processLine_shift cfg rc (p ++ t) cur ev c2]
            congr 1
            rw [List.append_assoc, ← ht1]
          constructor
          · rw [hql]
            simp only [processLines, hrlt, hneut]
            rw [hrem2]
            simp only [processLines]
            rw [hstepq]
          · intro st2 h2
            rw [hrlt] at h2
            simp only [processLines, hneut] at h2
            cases h2
            refine ⟨.mid b rest (p ++ t) c2, ⟨hwb, hwrest, ?_, hc2ne⟩, by simp [remText, ht2], rfl⟩
            rw [List.append_assoc, ← ht1, hpq]


theorem ml (cfg : Cfg) : ∀ (parts : List (List Char)) pos (st : EngSt),
    posOk pos → st.incomplete = incOf pos → parts.join = remText pos →
    processChunks cfg st (parts.map (fun c => ChunkRes.ok (utf8Encode c))) =
      match processLines cfg st (rustLines (remText pos)) with
      | .next st1 => .more st1
      | .stop st1 r => .stopped st1 r := by
  intro parts
  induction parts with
  | nil =>
    intro pos st hpos hinc hjoin
    simp only [List.join] at hjoin
    rw [← hjoin]
    simp [processChunks, rustLines, rustLinesAux, processLines]
  | cons pc parts ih =>
    intro pos st hpos hinc hjoin
    have hjoin2 : pc ++ parts.join = remText pos := by rw [← hjoin]; rfl
    have hil := il cfg pc.length pc le_rfl pos st parts.join hpos hinc hjoin2.symm
    simp only [List.map_cons, processChunks, utf8Decode_encode pc]
    rcases hres : processLines cfg st (rustLines pc) with st1 | ⟨st1, r⟩
    · obtain ⟨pos2, hpos2, hrem2, hinc2⟩ := hil.2 st1 hres
      rw [← hjoin2, hil.1, hres]
      have := ih pos2 st1 hpos2 hinc2 hrem2.symm
      rw [hrem2] at this
      exact this
    · rw [← hjoin2, hil.1, hres]


set_option maxRecDepth 100000 in
/-- Claim C1 (corrected): chunk-partition invariance of the frame decoder
holds for every partition of a well-formed stream into chunks that are cut
at UTF-8 character boundaries (equivalently: every chunk decodes as valid
UTF-8): feeding the chunks in order through the body-consumption loop of
`send_request` yields exactly the same outcome (same events, same final
state, same stop condition) as feeding the entire stream as one chunk. The
unrestricted byte-level statement is refuted by `c1_counterexample`. -/
theorem c1_chunk_invariance_utf8 (cfg : Cfg) (bodies parts : List (List Char))
    (rc : Nat) (cur : List Char) (ev : List (List Char))
    (hw : ∀ b ∈ bodies, WfLine b) (hpart : parts.join = streamText bodies) :
    processChunks cfg ⟨rc, [], cur, ev⟩
        (parts.map (fun c => ChunkRes.ok (utf8Encode c))) =
      processChunks cfg ⟨rc, [], cur, ev⟩
        [ChunkRes.ok (utf8Encode (streamText bodies))] := by
  have h1 := ml cfg parts (startPos bodies) ⟨rc, [], cur, ev⟩ (startPos_ok bodies hw)
    (by rw [startPos_inc]) (by rw [startPos_rem]; exact hpart)
  have h2 := ml cfg [streamText bodies] (startPos bodies) ⟨rc, [], cur, ev⟩
    (startPos_ok bodies hw) (by rw [startPos_inc]) (by rw [startPos_rem]; simp)
  exact h1.trans h2.symm

set_option maxRecDepth 1000000 in
/-- Witness for the corrected claim C1: the counterexample stream, split at a
character boundary in the middle of the first frame, is processed exactly as
the unsplit stream. -/
theorem c1_chunk_invariance_utf8_witness :
    (∀ b ∈ c1Bodies, WfLine b) ∧
    [(streamText c1Bodies).take 21, (streamText c1Bodies).drop 21].join =
      streamText c1Bodies ∧
    processChunks ⟨true, 3⟩ ⟨0, [], [], []⟩
        ([(streamText c1Bodies).take 21, (streamText c1Bodies).drop 21].map
          (fun c => ChunkRes.ok (utf8Encode c))) =
      processChunks ⟨true, 3⟩ ⟨0, [], [], []⟩
        [ChunkRes.ok (utf8Encode (streamText c1Bodies))] :=
  ⟨by decide, by simp,
    c1_chunk_invariance_utf8 ⟨true, 3⟩ c1Bodies
      [(streamText c1Bodies).take 21, (streamText c1Bodies).drop 21]
      0 [] [] (by decide) (by simp)⟩
